import Mathlib

/-!
Verification of the pbcode extension core: a shallow embedding in Lean 4 of

  * `PathResolver` (alias table normalization, specificity-ordered alias
    matching, literal and glob substitution),
  * the import-tree builder `resolveImportPaths` together with
    `resolveAliasPath` / `tryExtensions`,
  * the declaration extractor `CodeExtractor`
    (`extractImportedEntities` / `findDeclarations` / `formatDeclaration` /
    `isImportedInAny`),

followed by theorems settling the frozen claims C1 to C10 about this code.

Strings are embedded as Lean `String` and manipulated through explicit,
structurally recursive functions over `String.data`, so that all definitions
are executable by the kernel (`decide` / `rfl`).  JavaScript semantics that
the source relies on are modelled explicitly where the claims depend on them:

  * `String.prototype.replace` with a string pattern replaces the first
    occurrence and processes dollar escapes in the replacement
    (`jsReplaceFirst` / `getSubstitution`);
  * `String.prototype.trim`, `split("\n")`, `Array.prototype.join("\n")`
    (`jsTrim`, `splitNL`, `intercalateNL`);
  * `Array.prototype.sort` is stable (`sortAliases` via stable insertion);
  * JavaScript `Set` objects are modelled as lists used only through
    membership and insertion.

Node's `path.join` / `path.resolve` / `path.dirname` are modelled by
separator-joining functions without dot-segment normalization (`joinPath`,
`nodeResolve`, `nodeDirname`); none of the claims depend on dot-segment
handling.  The glob matcher compiled from a pattern by `matchGlobPattern`
is modelled directly on the glob (see its doc comment).
-/

/-! ## Definitions: the shallow embedding of the source -/

/-- One step of collapsing runs of `'/'`: `prevSlash` records whether the
previously emitted character was a slash.  Models `replace(/\/+/g, "/")`. -/
def collapseSlashesAux : Bool → List Char → List Char
  | _, [] => []
  | prevSlash, c :: rest =>
    if c = '/' then
      if prevSlash then collapseSlashesAux true rest
      else c :: collapseSlashesAux true rest
    else c :: collapseSlashesAux false rest

/-- `importPath.replace(/\/+/g, this.pathSeparator)` with separator `"/"`. -/
def normalizeSlashes (s : String) : String :=
  ⟨collapseSlashesAux false s.data⟩

/-- `alias.replace(/\*+$/, "*")`: a trailing run of `'*'` collapses to one. -/
def collapseTrailingStars (s : String) : String :=
  let r := s.data.reverse
  if r.head? = some '*' then ⟨(r.dropWhile (· = '*')).reverse ++ ['*']⟩ else s

/-- Number of occurrences of a character in a string. -/
def countChar (c : Char) (s : String) : Nat :=
  s.data.countP (· = c)

/-- Whether the string contains the character. -/
def containsChar (c : Char) (s : String) : Bool :=
  s.data.any (· = c)

/-- JavaScript `String.prototype.startsWith` for plain strings. -/
def strStartsWith (s pre : String) : Bool :=
  pre.data.isPrefixOf s.data

/-- JavaScript string `trim` (both ends, whitespace per `Char.isWhitespace`;
the JS `\s` class is modelled by Lean's ASCII whitespace predicate, which
agrees on every character occurring in the claims). -/
def jsTrim (s : String) : String :=
  ⟨((s.data.dropWhile Char.isWhitespace).reverse.dropWhile Char.isWhitespace).reverse⟩

/-- Index of the first occurrence of `pat` in `cs` (JS `String.indexOf`;
the empty pattern occurs at index 0). -/
def findSubstrIdx (pat : List Char) : List Char → Option Nat
  | [] => if pat.isEmpty then some 0 else none
  | c :: rest =>
    if pat.isPrefixOf (c :: rest) then some 0
    else (findSubstrIdx pat rest).map (· + 1)

/-- `GetSubstitution` for a string search value (no capture groups): in the
replacement, `$$` yields `$`, `$&` the matched text, a dollar followed by a
backquote the text before the match, `$'` the text after the match; any
other dollar sequence is literal. -/
def getSubstitution (matched before after : List Char) : List Char → List Char
  | [] => []
  | ['$'] => ['$']
  | '$' :: c :: rest =>
    if c = '$' then '$' :: getSubstitution matched before after rest
    else if c = '&' then matched ++ getSubstitution matched before after rest
    else if c = Char.ofNat 96 then before ++ getSubstitution matched before after rest
    else if c = Char.ofNat 39 then after ++ getSubstitution matched before after rest
    else '$' :: c :: getSubstitution matched before after rest
  | c :: rest => c :: getSubstitution matched before after rest

/-- JavaScript `s.replace(pattern, target)` for plain-string `pattern`:
replace the first occurrence, processing dollar escapes in `target`. -/
def jsReplaceFirst (s pattern target : String) : String :=
  match findSubstrIdx pattern.data s.data with
  | none => s
  | some i =>
    let before := s.data.take i
    let after := s.data.drop (i + pattern.data.length)
    ⟨before ++ getSubstitution pattern.data before after target.data ++ after⟩

/-- `s.split("*")[0]`: the prefix of the string before the first `'*'`. -/
def takeUntilStar (s : String) : String :=
  ⟨s.data.takeWhile (· ≠ '*')⟩

/-- JavaScript `s.slice(n)`. -/
def strDropChars (s : String) (n : Nat) : String :=
  ⟨s.data.drop n⟩

/-- Split a string at a target character: the part strictly before the first
occurrence, and the remainder starting at that occurrence (or `[]`). -/
def breakAtChar (t : Char) : List Char → List Char × List Char
  | [] => ([], [])
  | c :: rest =>
    if c = t then ([], c :: rest)
    else
      let p := breakAtChar t rest
      (c :: p.1, p.2)

/-- `tsconfig` path alias table; JavaScript object entries in insertion
order. -/
abbrev AliasMap := List (String × List String)

/-- Assignment to a JavaScript object key: overwrite in place if the key
exists, else append. -/
def insertEntry (m : AliasMap) (k : String) (v : List String) : AliasMap :=
  match m with
  | [] => [(k, v)]
  | (k', v') :: rest =>
    if k' = k then (k, v) :: rest else (k', v') :: insertEntry rest k v

/-- `normalizeAliasMap`: collapse trailing star runs of the alias key, and
collapse trailing star runs then runs of separators in every target. -/
def normalizeAliasMap (m : AliasMap) : AliasMap :=
  m.foldl
    (fun acc e =>
      insertEntry acc (collapseTrailingStars e.1)
        (e.2.map (fun target => normalizeSlashes (collapseTrailingStars target))))
    []

/-- `isGlobPattern`: the pattern contains `*`, `?`, `{` or `[`. -/
def isGlobPattern (pattern : String) : Bool :=
  containsChar '*' pattern || containsChar '?' pattern ||
    containsChar '\x7b' pattern || containsChar '[' pattern

/-- Fuel-indexed matcher for the regular expression compiled by
`matchGlobPattern` (`*` becomes `.*`, `?` becomes `.`, a bracket class
passes through, a brace group becomes a parenthesized literal group, and
the result is anchored on both ends).  Modelled directly on the glob:
literal characters match themselves, `*` matches any suffix split, `?` one
character, `[c...]` one character of the class (an unmatched `[` is
literal), and a brace group matches its body literally, which is what the
compiled group `(body)` matches since `,` is a literal in a regular
expression.  The model assumes wildcards do not occur inside bracket or
brace groups and that the remaining literal characters are not regular
expression metacharacters.  Each recursive call strictly decreases the
pattern, so fuel `pattern.length + 1` always suffices; fuel only makes the
recursion structural for kernel evaluation. -/
def globMatchAux : Nat → List Char → List Char → Bool
  | 0, _, _ => false
  | _ + 1, [], s => s.isEmpty
  | fuel + 1, p₀ :: p, s =>
    if p₀ = '*' then
      (s :: s.tails).any (globMatchAux fuel p)
    else if p₀ = '?' then
      match s with
      | [] => false
      | _ :: s' => globMatchAux fuel p s'
    else if p₀ = '[' then
      match breakAtChar ']' p with
      | (cls, _ :: p') =>
        match s with
        | [] => false
        | c :: s' => cls.contains c && globMatchAux fuel p' s'
      | (_, []) =>
        match s with
        | [] => false
        | c :: s' => c = '[' && globMatchAux fuel p s'
    else if p₀ = '\x7b' then
      match breakAtChar '\x7d' p with
      | (body, _ :: p') =>
        body.isPrefixOf s && globMatchAux fuel p' (s.drop body.length)
      | (_, []) =>
        match s with
        | [] => false
        | c :: s' => c = '\x7b' && globMatchAux fuel p s'
    else
      match s with
      | [] => false
      | c :: s' => c = p₀ && globMatchAux fuel p s'

/-- `matchGlobPattern(path, pattern)`: anchored match of the compiled glob
against the path. -/
def matchGlobPattern (path pattern : String) : Bool :=
  globMatchAux (pattern.data.length + 1) pattern.data path.data

/-- `replaceAlias(path, alias, target)`: for a glob alias, swap the literal
prefix before the first `*` of the alias for the one of the target; for a
literal alias, `path.replace(alias, target)`.  (`alias` is a reserved word
in Lean, so the parameter is named `pat`.) -/
def replaceAlias (path pat target : String) : String :=
  if isGlobPattern pat then
    let aliasBase := takeUntilStar pat
    let targetBase := takeUntilStar target
    targetBase ++ strDropChars path aliasBase.data.length
  else jsReplaceFirst path pat target

/-- The comparator of `resolvePath`'s alias sort, as the strict
"sorts before" relation: `x` sorts strictly before `y` iff `x` is literal
and `y` is glob, or both are in the same class and `x` is longer. -/
def aliasBefore (x y : String × List String) : Bool :=
  if isGlobPattern x.1 != isGlobPattern y.1 then !isGlobPattern x.1
  else decide (y.1.data.length < x.1.data.length)

/-- Stable insertion for `sortAliases`: `x` is placed before the first
element that does not sort strictly before it, so elements that tie with
`x` and were inserted later stay after it. -/
def insertAlias (x : String × List String) : AliasMap → AliasMap
  | [] => [x]
  | y :: l => if aliasBefore y x then y :: insertAlias x l else x :: y :: l

/-- The specificity sort of `resolvePath`: literal patterns before glob
patterns, longer before shorter within a class; stable (JavaScript
`Array.prototype.sort` is stable), so ties keep table order. -/
def sortAliases (m : AliasMap) : AliasMap :=
  m.foldr insertAlias []

/-- Whether an alias matches the normalized path: full glob match for a
glob pattern, prefix match for a literal pattern. -/
def aliasMatches (np : String) (pat : String) : Bool :=
  if isGlobPattern pat then matchGlobPattern np pat
  else strStartsWith np pat

/-- The scan of `resolvePath` over the sorted aliases: first match wins. -/
def findFirstMatch (np : String) : AliasMap → Option (String × List String)
  | [] => none
  | e :: rest => if aliasMatches np e.1 then some e else findFirstMatch np rest

/-- Outcome of one alias resolution attempt (`PathMatchResult`). -/
structure PathMatchResult where
  resolved : List String
  matched : Bool
  originalPath : String
  usedAlias : Option String
deriving DecidableEq, Repr

/-- `PathResolver.resolvePath` on the resolver's (already normalized) alias
table: normalize the input's separators, scan the specificity-sorted
aliases, and on the first match map every target through `replaceAlias`;
without a match fall back to the normalized path as sole resolution. -/
def resolvePath (aliasMap : AliasMap) (importPath : String) : PathMatchResult :=
  let np := normalizeSlashes importPath
  match findFirstMatch np (sortAliases aliasMap) with
  | some e => ⟨e.2.map (fun target => replaceAlias np e.1 target), true, importPath, some e.1⟩
  | none => ⟨[np], false, importPath, none⟩

/-- The `PathResolver` constructor stores the normalized alias map. -/
def mkPathResolver (m : AliasMap) : AliasMap :=
  normalizeAliasMap m

/-- One named/aliased/default/namespace binding of an import statement.
The optional JavaScript fields `alias`, `isDefault`, `isNamespace` are
modelled as `Option String` and `Bool` (absent means `false`); `alias` is a
reserved word in Lean, so the field is named `aliasName`. -/
structure ImportDeclaration where
  name : String
  aliasName : Option String
  isDefault : Bool
  isNamespace : Bool
deriving DecidableEq, Repr

/-- One import statement: specifier, bindings, resolved path (empty until
resolution succeeds). -/
structure ImportInfo where
  source : String
  imports : List ImportDeclaration
  resolvedPath : String
deriving DecidableEq, Repr

/-- Source line range of an extracted declaration (`end` is a reserved word
in Lean, so the field is named `endPos`). -/
structure DeclLocation where
  start : Nat
  endPos : Nat
deriving DecidableEq, Repr

/-- One extracted declaration (`ExtractedContent`). -/
structure ExtractedContent where
  name : String
  content : String
  location : DeclLocation
deriving DecidableEq, Repr

/-- `sourceCode.split("\n")`, accumulator-based (the accumulator holds the
current line reversed). -/
def splitNLAux : List Char → List Char → List String
  | acc, [] => [⟨acc.reverse⟩]
  | acc, c :: rest =>
    if c = '\n' then ⟨acc.reverse⟩ :: splitNLAux [] rest
    else splitNLAux (c :: acc) rest

/-- JavaScript `split("\n")`: always nonempty, keeps empty lines. -/
def splitNL (s : String) : List String :=
  splitNLAux [] s.data

/-- JavaScript `lines.join("\n")`. -/
def intercalateNL : List String → String
  | [] => ""
  | [l] => l
  | l :: rest => l ++ "\n" ++ intercalateNL rest

/-- Count of `{` minus count of `}` on a line, as an integer (the counter
in the scanner is a JavaScript number and may go negative). -/
def braceDelta (t : String) : Int :=
  (countChar '\x7b' t : Int) - (countChar '\x7d' t : Int)

/-- `line.match(/[};]/)`: the line contains `}` or `;`. -/
def hasTerm (t : String) : Bool :=
  t.data.any (fun c => c = '\x7d' || c = ';')

/-- A character of the class `[A-Za-z0-9_]`. -/
def isIdentChar (c : Char) : Bool :=
  c.isAlpha || c.isDigit || c = '_'

/-- Consume the keyword followed by one or more whitespace characters
(`kw\s+` of the declaration-start pattern), or fail. -/
def tryConsumeKw (kw : List Char) (cs : List Char) : Option (List Char) :=
  if kw.isPrefixOf cs then
    match cs.drop kw.length with
    | c :: rest =>
      if c.isWhitespace then some (rest.dropWhile Char.isWhitespace) else none
    | [] => none
  else none

/-- Consume an optional `kw\s+` group (`(?:kw\s+)?`).  Greedy matching never
needs backtracking here because no keyword of the pattern starts with the
first letter of another group's keyword. -/
def optConsumeKw (kw : List Char) (cs : List Char) : List Char :=
  (tryConsumeKw kw cs).getD cs

/-- Try the keyword alternatives of the declaration-start pattern in order,
each followed by `\s+`. -/
def firstKw : List String → List Char → Option (List Char)
  | [], _ => none
  | k :: ks, cs =>
    match tryConsumeKw k.data cs with
    | some rest => some rest
    | none => firstKw ks cs

/-- The declaration-start pattern of `findDeclarations`,
`/^(?:export\s+)?(?:default\s+)?(?:async\s+)?(?:function|class|interface|type|const)\s+([A-Za-z0-9_]+)/`,
applied to the trimmed line; returns the captured identifier. -/
def parseDeclStart (line : String) : Option String :=
  let cs := line.data
  let cs := optConsumeKw "export".data cs
  let cs := optConsumeKw "default".data cs
  let cs := optConsumeKw "async".data cs
  match firstKw ["function", "class", "interface", "type", "const"] cs with
  | none => none
  | some rest =>
    let ident := rest.takeWhile isIdentChar
    if ident.isEmpty then none else some ⟨ident⟩

/-- The mutable collection state of the scanner while a declaration is
being collected: captured name, start line index, buffered raw lines, and
running brace depth. -/
structure CollectState where
  name : String
  startLine : Nat
  buffer : List String
  bracketCount : Int
deriving DecidableEq, Repr

/-- A scanned declaration before the selection policy is applied: captured
name, start and end line indices, and the buffered raw lines. -/
structure RawDecl where
  name : String
  startLine : Nat
  endLine : Nat
  buffer : List String
deriving DecidableEq, Repr

/-- Collapse a buffered maximal whitespace run (held reversed): a run
containing three or more newlines becomes its newline-free leading
whitespace, exactly two newlines, and its newline-free trailing whitespace.
This is the effect of one global-replace match of `/\n\s*\n\s*\n/` with
`"\n\n"`: the leftmost match starts at the run's first newline, greediness
with backtracking extends it to the run's last newline, and runs with at
most two newlines contain no match. -/
def flushWsRun (pend : List Char) : List Char :=
  let run := pend.reverse
  if 3 ≤ run.countP (· = '\n') then
    run.takeWhile (· ≠ '\n') ++ '\n' :: '\n' :: (run.reverse.takeWhile (· ≠ '\n')).reverse
  else run

/-- Scan for `collapseBlankRuns`, buffering the current maximal whitespace
run reversed in `pend`. -/
def collapseBlankAux : List Char → List Char → List Char
  | pend, [] => flushWsRun pend
  | pend, c :: rest =>
    if c.isWhitespace then collapseBlankAux (c :: pend) rest
    else flushWsRun pend ++ c :: collapseBlankAux [] rest

/-- `content.replace(/\n\s*\n\s*\n/g, "\n\n")`: every run of blank lines
of two or more (three or more newlines separated only by whitespace)
collapses to one blank line. -/
def collapseBlankRuns (content : String) : String :=
  ⟨collapseBlankAux [] content.data⟩

/-- `content.replace(/^export\s+default\s+/, "")`: strip a leading
`export` + whitespace + `default` + whitespace. -/
def stripExportDefault (content : String) : String :=
  match tryConsumeKw "export".data content.data with
  | none => content
  | some rest =>
    match tryConsumeKw "default".data rest with
    | none => content
    | some rest' => ⟨rest'⟩

/-- `formatDeclaration`: collapse blank-line runs, strip a leading
`export default `, and wrap the trimmed content in one leading and one
trailing newline. -/
def formatDeclaration (content : String) : String :=
  "\n" ++ jsTrim (stripExportDefault (collapseBlankRuns content)) ++ "\n"

/-- `isImportedInAny(name, importInfo)`: some binding's bound name or alias
equals the name, or the binding is the default import and the captured name
is `default`, or the binding is a namespace import. -/
def isImportedInAny (name : String) (importInfo : ImportInfo) : Bool :=
  importInfo.imports.any fun i =>
    i.name == name || i.aliasName == some name ||
      (i.isDefault && name == "default") || i.isNamespace

/-- `storeCurrentDeclaration`: keep the collected declaration if its name
was not kept before in this call and is imported by the supplied
`ImportInfo`; returns the kept entry (if any) and the updated seen set.
The JavaScript truthiness guard on `currentName` is modelled by the
presence of the collection state; the captured name is never empty. -/
def storeDecl (info : ImportInfo) (st : CollectState) (endLine : Nat)
    (seen : List String) : Option ExtractedContent × List String :=
  if st.name ∉ seen ∧ isImportedInAny st.name info then
    (some ⟨st.name, formatDeclaration (intercalateNL st.buffer), ⟨st.startLine, endLine⟩⟩,
      st.name :: seen)
  else (none, seen)

/-- The line loop of `findDeclarations`: `i` is the index of the head of
the remaining lines, `cur` the collection state (`none` when not
collecting), `seen` the names kept so far.  A line that starts a
declaration initializes the state and `continue`s, so the end-of-declaration
test is not applied to the start line itself; while collecting, the raw
line is buffered, the brace depth adjusted, and the declaration stored when
the depth is back to zero on a line containing `}` or `;`.  At end of input
a still-active collection is force-closed at the last line index. -/
def findAux (info : ImportInfo) : List String → Nat → Option CollectState →
    List String → List ExtractedContent
  | [], _, none, _ => []
  | [], i, some st, seen =>
    match storeDecl info st (i - 1) seen with
    | (some e, _) => [e]
    | (none, _) => []
  | l :: rest, i, none, seen =>
    match parseDeclStart (jsTrim l) with
    | some nm =>
      findAux info rest (i + 1) (some ⟨nm, i, [l], braceDelta (jsTrim l)⟩) seen
    | none => findAux info rest (i + 1) none seen
  | l :: rest, i, some st, seen =>
    let t := jsTrim l
    let cnt := st.bracketCount + braceDelta t
    if cnt = 0 ∧ hasTerm t then
      match storeDecl info ⟨st.name, st.startLine, st.buffer ++ [l], cnt⟩ i seen with
      | (some e, seen') => e :: findAux info rest (i + 1) none seen'
      | (none, seen') => findAux info rest (i + 1) none seen'
    else
      findAux info rest (i + 1) (some ⟨st.name, st.startLine, st.buffer ++ [l], cnt⟩) seen

/-- `findDeclarations(sourceCode, importInfo)`. -/
def findDeclarations (sourceCode : String) (importInfo : ImportInfo) :
    List ExtractedContent :=
  findAux importInfo (splitNL sourceCode) 0 none []

/-- `extractImportedEntities`: clears the per-call seen set and delegates;
the surrounding try/catch is unreachable in the embedding because
`findDeclarations` is total. -/
def extractImportedEntities (sourceCode : String) (importInfo : ImportInfo) :
    List ExtractedContent :=
  findDeclarations sourceCode importInfo

/-- The scan of `findDeclarations` without the selection policy: every
declaration the state machine delimits, in source order.  The policy of
`storeCurrentDeclaration` does not influence the state transitions, so the
scan is a faithful projection of the same machine. -/
def scanAux : List String → Nat → Option CollectState → List RawDecl
  | [], _, none => []
  | [], i, some st => [⟨st.name, st.startLine, i - 1, st.buffer⟩]
  | l :: rest, i, none =>
    match parseDeclStart (jsTrim l) with
    | some nm => scanAux rest (i + 1) (some ⟨nm, i, [l], braceDelta (jsTrim l)⟩)
    | none => scanAux rest (i + 1) none
  | l :: rest, i, some st =>
    let t := jsTrim l
    let cnt := st.bracketCount + braceDelta t
    if cnt = 0 ∧ hasTerm t then
      ⟨st.name, st.startLine, i, st.buffer ++ [l]⟩ :: scanAux rest (i + 1) none
    else
      scanAux rest (i + 1) (some ⟨st.name, st.startLine, st.buffer ++ [l], cnt⟩)

/-- All declarations delimited by the scanner in a source text. -/
def scanDeclarations (sourceCode : String) : List RawDecl :=
  scanAux (splitNL sourceCode) 0 none

/-- The selection policy of `storeCurrentDeclaration`, lifted out of the
scan: keep a scanned declaration iff its name is imported and was not kept
before (first occurrence wins), threading the seen set left to right. -/
def emitAll (info : ImportInfo) : List String → List RawDecl → List ExtractedContent
  | _, [] => []
  | seen, d :: ds =>
    if d.name ∉ seen ∧ isImportedInAny d.name info then
      ⟨d.name, formatDeclaration (intercalateNL d.buffer), ⟨d.startLine, d.endLine⟩⟩ ::
        emitAll info (d.name :: seen) ds
    else emitAll info seen ds

/-- The external collaborators of the traversal: filesystem existence
checks (`fs.access`), file reading (`vscode.workspace.openTextDocument`,
`none` models a read failure that would throw), the upstream full-grammar
parser of import statements (`parseImports`), the workspace root, and the alias table
obtained from `tsconfig.json` (`loadTSConfig` and JSON5 parsing are
external per the specification; a failed load degrades to the empty
table, which is a value of the same field). -/
structure Env where
  fsExists : String → Bool
  readFile : String → Option String
  parseImports : String → List ImportInfo
  workspaceRoot : String
  tsconfigPaths : AliasMap

/-- Node `path.join` on a segment list: empty segments are skipped, the
rest joined with `/` and runs of separators collapsed (an all-empty join
yields `"."`).  Dot-segment normalization is not modelled; no claim
depends on it. -/
def joinPath (segments : List String) : String :=
  let parts := segments.filter (· ≠ "")
  if parts.isEmpty then "." else normalizeSlashes (intercalateSlash parts)
where
  intercalateSlash : List String → String
    | [] => ""
    | [s] => s
    | s :: rest => s ++ "/" ++ intercalateSlash rest

/-- Node `path.dirname`, simplified: the part before the last separator,
`"."` when there is none. -/
def nodeDirname (p : String) : String :=
  match breakAtChar '/' p.data.reverse with
  | (_, _ :: restRev) => ⟨restRev.reverse⟩
  | (_, []) => "."

/-- Drop leading `./` segments of a relative specifier. -/
def stripDotSlash : List Char → List Char
  | '.' :: '/' :: rest => stripDotSlash rest
  | cs => cs

/-- Node `path.resolve(dir, rel)`, simplified: an absolute `rel` wins,
otherwise the two are joined after dropping leading `./` segments of
`rel`; `..` segments are not normalized (no claim depends on them). -/
def nodeResolve (dir rel : String) : String :=
  if strStartsWith rel "/" then normalizeSlashes rel
  else joinPath [dir, ⟨stripDotSlash rel.data⟩]

/-- `tryExtensions`: append `.ts`, `.tsx`, `.js`, `.jsx` in that order to
the base path and return the first path the filesystem reports as
existing. -/
def tryExtensionsList (env : Env) (basePath : String) : List String → Option String
  | [] => none
  | ext :: rest =>
    if env.fsExists (basePath ++ ext) then some (basePath ++ ext)
    else tryExtensionsList env basePath rest

/-- The fixed extension list of `tryExtensions`. -/
def extensionsList : List String := [".ts", ".tsx", ".js", ".jsx"]

/-- `tryExtensions(basePath)`. -/
def tryExtensions (env : Env) (basePath : String) : Option String :=
  tryExtensionsList env basePath extensionsList

/-- The fixed base-directory preference order of `resolveAliasPath`. -/
def possibleBaseDirs : List String := ["", "src", "app"]

/-- Probe a list of base paths with `tryExtensions`, first hit wins. -/
def probePaths (env : Env) : List String → Option String
  | [] => none
  | bp :: rest =>
    match tryExtensions env bp with
    | some hit => some hit
    | none => probePaths env rest

/-- The base-directory loop of `resolveAliasPath`: for each base directory
resolve the specifier through the alias resolver and probe, for the first
resolved target only, the bare joined path, then with `/page`, then with
`/index`.  An empty resolved list models `resolved[0]` being `undefined`,
on which `path.join` throws a `TypeError` (`Except.error`). -/
def resolveAliasBaseDirs (env : Env) (workspaceRoot importPath : String)
    (aliasMap : AliasMap) : List String → Except Unit (Option String)
  | [] => .ok none
  | baseDir :: rest =>
    match (resolvePath aliasMap importPath).resolved with
    | [] => .error ()
    | r0 :: _ =>
      match probePaths env
          [joinPath [workspaceRoot, baseDir, r0],
            joinPath [workspaceRoot, baseDir, r0, "page"],
            joinPath [workspaceRoot, baseDir, r0, "index"]] with
      | some hit => .ok (some hit)
      | none => resolveAliasBaseDirs env workspaceRoot importPath aliasMap rest

/-- `resolveAliasPath(importPath, workspaceRoot, tsconfig)`: the resolver
is constructed from the config's path table (normalizing it) and the base
directories are tried in their fixed order. -/
def resolveAliasPath (env : Env) (importPath : String) : Except Unit (Option String) :=
  resolveAliasBaseDirs env env.workspaceRoot importPath
    (mkPathResolver env.tsconfigPaths) possibleBaseDirs

/-- The per-import resolution dispatch of `resolveImportPaths` (lines
87-103): a specifier starting with `@` goes through `resolveAliasPath`, a
specifier starting with `.` is resolved against the importing file's
directory and probed with `tryExtensions`, and any other specifier is left
unresolved (`resolvedPath` stays `null`). -/
def resolveOneImport (env : Env) (currentFilePath source : String) :
    Except Unit (Option String) :=
  if strStartsWith source "@" then resolveAliasPath env source
  else if strStartsWith source "." then
    .ok (tryExtensions env (nodeResolve (nodeDirname currentFilePath) source))
  else .ok none

/-- A node of the resolved import forest (`ResolvedImportTree`). -/
inductive RTree where
  | mk (importInfo : ImportInfo) (nestedImports : Option (List RTree))

/-- The `ImportInfo` of a node. -/
def RTree.importInfo : RTree → ImportInfo
  | .mk i _ => i

/-- The optional nested forest of a node. -/
def RTree.nestedImports : RTree → Option (List RTree)
  | .mk _ n => n

/-- Insertion into the processed-paths set (JavaScript `Set.add`). -/
def insertPath (ps : List String) (p : String) : List String :=
  if p ∈ ps then ps else p :: ps

/-- The import loop of `resolveImportPaths` at depth `d`, with the
recursion into nested imports abstracted as `recurse` (instantiated by
`resolveGo env (d - 1)` below; `recurse` is only reached when `1 < d`).
For each import: resolve; on a thrown error (`Except.error`) or a `null`
resolution, skip; on a resolved path already processed, skip; otherwise,
when `1 < d`, read the file (a failed read throws and is caught: skip),
parse its imports, recurse with the resolved path added to the processed
set first (the recursive call's own seeding of its current file), attach
the nested forest, and in all success cases push the node and add the
resolved path to the processed set before the remaining imports. -/
def resolveImportsList (env : Env) (d : Nat)
    (recurse : List ImportInfo → String → List String → List RTree × List String) :
    List ImportInfo → String → List String → List RTree × List String
  | [], _, ps => ([], ps)
  | imp :: rest, cur, ps =>
    match resolveOneImport env cur imp.source with
    | .error _ => resolveImportsList env d recurse rest cur ps
    | .ok none => resolveImportsList env d recurse rest cur ps
    | .ok (some rp) =>
      if rp ∈ ps then resolveImportsList env d recurse rest cur ps
      else if 1 < d then
        match env.readFile rp with
        | none => resolveImportsList env d recurse rest cur ps
        | some text =>
          let nested := recurse (env.parseImports text) rp (insertPath ps rp)
          let more :=
            resolveImportsList env d recurse rest cur (insertPath nested.2 rp)
          (.mk { imp with resolvedPath := rp } (some nested.1) :: more.1, more.2)
      else
        let more := resolveImportsList env d recurse rest cur (insertPath ps rp)
        (.mk { imp with resolvedPath := rp } none :: more.1, more.2)

/-- The recursive core of `resolveImportPaths`, structurally recursive on
the depth: at depth `d + 1` nested imports are processed at depth `d`.
At depth 0 or 1 the recursion is never reached. -/
def resolveGo (env : Env) : Nat → List ImportInfo → String → List String →
    List RTree × List String
  | 0 => resolveImportsList env 0 (fun _ _ ps => ([], ps))
  | d + 1 => resolveImportsList env (d + 1) (resolveGo env d)

/-- `resolveImportPaths(imports, currentFilePath, maxDepth, processedPaths)`:
the current file's path is added to the shared processed set before
the import loop runs. -/
def resolveImportPaths (env : Env) (imports : List ImportInfo)
    (currentFilePath : String) (maxDepth : Nat) (processedPaths : List String) :
    List RTree × List String :=
  resolveGo env maxDepth imports currentFilePath (insertPath processedPaths currentFilePath)

/-- The resolved paths of all nodes of a forest, in traversal order. -/
def forestPaths : List RTree → List String
  | [] => []
  | .mk info none :: rest => info.resolvedPath :: forestPaths rest
  | .mk info (some ts) :: rest =>
    info.resolvedPath :: (forestPaths ts ++ forestPaths rest)
termination_by l => sizeOf l

/-- The number of hops of the deepest path of a forest of direct imports
(a direct import is one hop). -/
def forestDepth : List RTree → Nat
  | [] => 0
  | .mk _ none :: rest => max 1 (forestDepth rest)
  | .mk _ (some ts) :: rest => max (1 + forestDepth ts) (forestDepth rest)
termination_by l => sizeOf l

/-- Per-branch depth ceiling: every node with an attached nested forest
was expanded with more than one level of depth remaining and each of its
children is within the same remaining ceiling `d - 1`. -/
def forestWithin : Nat → List RTree → Bool
  | _, [] => true
  | d, .mk _ none :: rest => forestWithin d rest
  | d, .mk _ (some ts) :: rest =>
    decide (1 < d) && forestWithin (d - 1) ts && forestWithin d rest
termination_by _ l => sizeOf l

/-- No two consecutive separators occur in the string. -/
def noDoubleSlashList : List Char → Bool
  | a :: b :: r => !(a = '/' && b = '/') && noDoubleSlashList (b :: r)
  | _ => true

/-- No two consecutive separators occur in the string. -/
def noDoubleSlash (s : String) : Bool :=
  noDoubleSlashList s.data

deriving instance DecidableEq for Except

/-- First path of the list the filesystem reports as existing. -/
def firstExisting (env : Env) : List String → Option String
  | [] => none
  | c :: rest => if env.fsExists c then some c else firstExisting env rest

/-- The probe candidates of one base directory for the first resolved
target `r0`, fully flattened in probe order: bare joined path, then with
`/page`, then with `/index`, each tried with `.ts`, `.tsx`, `.js`, `.jsx`. -/
def probeCandidatesForDir (root b r0 : String) : List String :=
  ([joinPath [root, b, r0], joinPath [root, b, r0, "page"],
      joinPath [root, b, r0, "index"]].map
    (fun bp => extensionsList.map (fun e => bp ++ e))).flatten

/-- All probe candidates of `resolveAliasPath` in order: base directories
project root, then `src`, then `app`; within each, the candidates of
`probeCandidatesForDir`. -/
def aliasProbeCandidates (root r0 : String) : List String :=
  (possibleBaseDirs.map (fun b => probeCandidatesForDir root b r0)).flatten

/-- The failure modes of a single import inside the traversal: the
specifier cannot be resolved (a thrown resolution error, or a `null`
result), or reading the resolved file fails when nested expansion would
read it (`maxDepth > 1`). -/
def resolutionFails (env : Env) (cur : String) (d : Nat) (imp : ImportInfo) : Prop :=
  resolveOneImport env cur imp.source = .error () ∨
  resolveOneImport env cur imp.source = .ok none ∨
  ∃ rp, resolveOneImport env cur imp.source = .ok (some rp) ∧ 1 < d ∧
    env.readFile rp = none

/-- Concrete environment for the C9 witness: only `/w/good.ts` exists. -/
def envC9 : Env :=
  { fsExists := fun p => p = "/w/good.ts", readFile := fun _ => none,
    parseImports := fun _ => [], workspaceRoot := "/w", tsconfigPaths := [] }

/-- Concrete environment for the C5 witness. -/
def envC5 : Env :=
  { fsExists := fun p => p = "/w/a.ts", readFile := fun _ => some "",
    parseImports := fun _ => [], workspaceRoot := "/w", tsconfigPaths := [] }

/-- The coupling invariant of the processed-path set: the set only grows,
the resolved paths of the produced forest are pairwise distinct, and every
produced path is fresh with respect to the incoming set and recorded in
the outgoing set. -/
def pathsProp (ps ps' : List String) (trees : List RTree) : Prop :=
  (∀ x ∈ ps, x ∈ ps') ∧ (forestPaths trees).Nodup ∧
    (∀ q ∈ forestPaths trees, q ∉ ps ∧ q ∈ ps')

/-- The tie class of an entry: same glob-versus-literal classification and
same pattern length. -/
def tieClass (g : Bool) (n : Nat) (e : String × List String) : Bool :=
  (isGlobPattern e.1 == g) && (e.1.data.length == n)

/-- Running brace balance of the scanner from line `s` through line `j`
inclusive (deltas are counted on the trimmed lines, as in the source). -/
def braceSum (lines : List String) (s j : Nat) : Int :=
  (((lines.drop s).take (j - s + 1)).map (fun l => braceDelta (jsTrim l))).sum

/-- Line `j` closes a declaration collected from line `s`: the running
brace depth from `s` through `j` is back to exactly 0 and the line
contains `}` or `;`. -/
def lineCloses (lines : List String) (s j : Nat) : Bool :=
  decide (braceSum lines s j = 0) && hasTerm (jsTrim (lines.getD j ""))

/-- The end-line and buffer characterization of one scanned declaration:
the buffer is the contiguous slice of raw lines from the start line through
the end line, and the end line is either the first line strictly after the
start line at which the running brace depth is exactly zero and the line
contains a brace-close or a semicolon, or, when no such line exists, the
last line of the input (the end-of-file force-close). -/
def declSpec (lines : List String) (d : RawDecl) : Prop :=
  d.startLine ≤ d.endLine ∧ d.endLine < lines.length ∧
  d.buffer = (lines.drop d.startLine).take (d.endLine - d.startLine + 1) ∧
  ((d.startLine < d.endLine ∧ lineCloses lines d.startLine d.endLine = true ∧
      ∀ j, d.startLine < j → j < d.endLine →
        lineCloses lines d.startLine j = false) ∨
    (d.endLine = lines.length - 1 ∧
      ∀ j, d.startLine < j → j < lines.length →
        lineCloses lines d.startLine j = false))

/-- The scanner's in-flight invariant for the collection state. -/
def curInv (lines : List String) (i : Nat) : Option CollectState → Prop
  | none => True
  | some st =>
      st.startLine < i ∧
      st.bracketCount = braceSum lines st.startLine (i - 1) ∧
      st.buffer = (lines.drop st.startLine).take (i - st.startLine) ∧
      ∀ j, st.startLine < j → j < i → lineCloses lines st.startLine j = false

/-- Number of newline characters in a character list. -/
def nlCount (cs : List Char) : Nat := cs.countP (· = '\n')

/-- Automaton checking that no maximal whitespace run of the input
contains more than two newline characters: `k` counts the newlines of the
current run, a non-whitespace character resets it. -/
def noBigRunAux : Nat → List Char → Bool
  | _, [] => true
  | k, c :: rest =>
    if c = '\n' then decide (k + 1 ≤ 2) && noBigRunAux (k + 1) rest
    else if c.isWhitespace then noBigRunAux k rest
    else noBigRunAux 0 rest

/-- No maximal whitespace run of the string contains more than two
newlines, i.e. no run of more than one blank line remains. -/
def noBigBlankRun (s : String) : Bool := noBigRunAux 0 s.data

/-! ## Theorems: helper lemmas and the claims C1 to C10 -/

theorem breakAtChar_snd_length_le (t : Char) (l : List Char) :
    (breakAtChar t l).2.length ≤ l.length := by
  induction l with
  | nil => simp [breakAtChar]
  | cons c rest ih =>
    simp only [breakAtChar]
    split
    · simp
    · simpa using Nat.le_succ_of_le ih

theorem collapseSlashesAux_eq_self : ∀ (cs : List Char) (prev : Bool),
    noDoubleSlashList cs = true → (prev = true → cs.head? ≠ some '/') →
    collapseSlashesAux prev cs = cs := by
  intro cs
  induction cs with
  | nil => intro prev _ _; cases prev <;> rfl
  | cons c rest ih =>
    intro prev h hp
    have hrest : noDoubleSlashList rest = true := by
      match rest, h with
      | [], _ => rfl
      | b :: r, h =>
        simp only [noDoubleSlashList, Bool.and_eq_true] at h
        exact h.2
    by_cases hc : c = '/'
    · have hprev : prev = false := by
        cases prev with
        | false => rfl
        | true => exact absurd (show (c :: rest).head? = some '/' by simp [hc]) (hp rfl)
      subst hprev
      subst hc
      have hnext : rest.head? ≠ some '/' := by
        match rest, h with
        | [], _ => simp
        | b :: r, h =>
          intro hb
          have hb' : b = '/' := by simpa using hb
          subst hb'
          simp [noDoubleSlashList] at h
      simp only [collapseSlashesAux, if_pos rfl, Bool.false_eq_true, if_false]
      rw [ih true hrest (fun _ => hnext)]
      simp
    · simp only [collapseSlashesAux, if_neg hc]
      rw [ih false hrest (fun hf => absurd hf (by simp))]

theorem normalizeSlashes_eq_self (s : String) (h : noDoubleSlash s = true) :
    normalizeSlashes s = s := by
  show String.mk (collapseSlashesAux false s.data) = s
  rw [collapseSlashesAux_eq_self s.data false h (by simp)]

theorem getSubstitution_of_no_dollar (m b a : List Char) :
    ∀ t : List Char, '$' ∉ t → getSubstitution m b a t = t := by
  intro t
  induction t with
  | nil => intro _; rfl
  | cons c rest ih =>
    intro h
    have hc : c ≠ '$' := fun hc => h (by simp [hc])
    have hrest : '$' ∉ rest := fun hr => h (by simp [hr])
    rw [getSubstitution.eq_def]
    split
    · rename_i heq; exact absurd heq (by simp)
    · rename_i heq
      have : c = '$' := (List.cons.injEq c rest '$' []).mp heq |>.1
      exact absurd this hc
    · rename_i c' r' heq
      have : c = '$' := (List.cons.injEq c rest '$' (c' :: r')).mp heq |>.1
      exact absurd this hc
    · rename_i c' r' hne1 hne2 heq
      have h1 : c' = c := ((List.cons.injEq c rest c' r').mp heq).1.symm
      have h2 : r' = rest := ((List.cons.injEq c rest c' r').mp heq).2.symm
      subst h1
      subst h2
      rw [ih hrest]

theorem isPrefixOf_append_self (a s : List Char) : a.isPrefixOf (a ++ s) = true :=
  List.isPrefixOf_iff_prefix.mpr (List.prefix_append a s)

theorem findSubstrIdx_append_self (a s : List Char) :
    findSubstrIdx a (a ++ s) = some 0 := by
  match h : a ++ s with
  | [] =>
    have ha : a = [] := by
      cases a with
      | nil => rfl
      | cons x xs => simp at h
    rw [findSubstrIdx, if_pos (by simp [ha])]
  | c :: rest =>
    rw [findSubstrIdx, if_pos (h ▸ isPrefixOf_append_self a s)]

theorem jsReplaceFirst_at_start (a s t : String) (h : containsChar '$' t = false) :
    jsReplaceFirst (a ++ s) a t = t ++ s := by
  have hdollar : '$' ∉ t.data := by
    intro hm
    have hcc : containsChar '$' t = true := by simpa [containsChar] using hm
    exact Bool.false_ne_true (h.symm.trans hcc)
  unfold jsReplaceFirst
  rw [String.data_append, findSubstrIdx_append_self a.data s.data]
  simp only [List.take_zero, Nat.zero_add, List.drop_left,
    getSubstitution_of_no_dollar _ _ _ _ hdollar]
  apply String.ext
  simp [String.data_append]

/-- C3, counterexample: the claim "resolving `a + s` yields resolved
`[t + s]` exactly" fails for the table `{"@a": ["lib"]}` and the suffix
`"//x"`: the resolver first collapses runs of separators in the specifier,
so `"@a" ++ "//x"` resolves to `["lib/x"]`, not to `["lib" ++ "//x"]`. -/
theorem c3_counterexample :
    resolvePath (mkPathResolver [("@a", ["lib"])]) ("@a" ++ "//x") =
      { resolved := ["lib/x"], matched := true, originalPath := "@a//x",
        usedAlias := some "@a" } ∧
    ("lib/x" : String) ≠ "lib" ++ "//x" := by
  constructor
  · decide
  · decide

/-- C3, amended: for a non-glob alias `a` mapping to the singleton `[t]`
that the specificity ordering selects first for the specifier `a ++ s`,
if `a ++ s` contains no repeated separators (the resolver collapses such
runs first) and `t` contains no dollar character (JavaScript `replace`
processes dollar escapes in the replacement), then resolution yields
`matched = true` with resolved list `[t ++ s]`: everything in the
specifier after the alias prefix is preserved and appended after the
target. -/
theorem c3_literal_prefix_substitution (m : AliasMap) (a t s : String)
    (hglob : isGlobPattern a = false)
    (hslash : noDoubleSlash (a ++ s) = true)
    (hdollar : containsChar '$' t = false)
    (hfirst : findFirstMatch (a ++ s) (sortAliases m) = some (a, [t])) :
    resolvePath m (a ++ s) =
      { resolved := [t ++ s], matched := true, originalPath := a ++ s,
        usedAlias := some a } := by
  unfold resolvePath replaceAlias
  rw [normalizeSlashes_eq_self _ hslash]
  simp only [hfirst, List.map, hglob, Bool.false_eq_true, if_false]
  rw [jsReplaceFirst_at_start a s t hdollar]

/-- Witness for C3's amended theorem at the table `{"@c": ["lib"]}` and
the suffix `"/util"`. -/
theorem c3_witness :
    isGlobPattern "@c" = false ∧ noDoubleSlash ("@c" ++ "/util") = true ∧
    containsChar '$' "lib" = false ∧
    findFirstMatch ("@c" ++ "/util") (sortAliases [("@c", ["lib"])]) =
      some ("@c", ["lib"]) ∧
    resolvePath [("@c", ["lib"])] ("@c" ++ "/util") =
      { resolved := ["lib" ++ "/util"], matched := true,
        originalPath := "@c" ++ "/util", usedAlias := some "@c" } :=
  ⟨by decide, by decide, by decide, by decide,
    c3_literal_prefix_substitution [("@c", ["lib"])] "@c" "lib" "/util"
      (by decide) (by decide) (by decide) (by decide)⟩

theorem tryExtensionsList_eq_firstExisting (env : Env) (bp : String) :
    ∀ exts : List String,
      tryExtensionsList env bp exts = firstExisting env (exts.map (bp ++ ·)) := by
  intro exts
  induction exts with
  | nil => rfl
  | cons e rest ih =>
    simp only [tryExtensionsList, List.map, firstExisting, ih]

theorem firstExisting_append (env : Env) (xs ys : List String) :
    firstExisting env (xs ++ ys) =
      match firstExisting env xs with
      | some hit => some hit
      | none => firstExisting env ys := by
  induction xs with
  | nil => simp [firstExisting]
  | cons x rest ih =>
    simp only [List.cons_append, firstExisting]
    by_cases hx : env.fsExists x = true
    · simp [hx]
    · simp only [Bool.not_eq_true] at hx
      simp [hx, ih]

theorem probePaths_eq_firstExisting (env : Env) :
    ∀ bps : List String,
      probePaths env bps =
        firstExisting env
          ((bps.map (fun bp => extensionsList.map (bp ++ ·))).flatten) := by
  intro bps
  induction bps with
  | nil => rfl
  | cons bp rest ih =>
    simp only [probePaths, List.map, tryExtensions,
      tryExtensionsList_eq_firstExisting, ih, List.flatten_cons, firstExisting_append]

theorem resolveAliasBaseDirs_flatten (env : Env) (root sp : String) (m : AliasMap) :
    ∀ dirs : List String, dirs ≠ [] →
      resolveAliasBaseDirs env root sp m dirs =
        match (resolvePath m sp).resolved with
        | [] => .error ()
        | r0 :: _ =>
          .ok (firstExisting env
            ((dirs.map (fun b => probeCandidatesForDir root b r0)).flatten)) := by
  intro dirs
  induction dirs with
  | nil => intro h; exact absurd rfl h
  | cons b rest ih =>
    intro _
    cases hres : (resolvePath m sp).resolved with
    | nil => simp only [resolveAliasBaseDirs, hres]
    | cons r0 rtail =>
      simp only [resolveAliasBaseDirs, hres]
      have hprobe :
          probePaths env
              [joinPath [root, b, r0], joinPath [root, b, r0, "page"],
                joinPath [root, b, r0, "index"]] =
            firstExisting env (probeCandidatesForDir root b r0) := by
        rw [probePaths_eq_firstExisting]
        rfl
      rw [hprobe]
      simp only [List.map, List.flatten_cons, firstExisting_append]
      cases hfe : firstExisting env (probeCandidatesForDir root b r0) with
      | some hit => rfl
      | none =>
        cases rest with
        | nil => simp [resolveAliasBaseDirs, firstExisting]
        | cons b' rest' =>
          rw [ih (by simp)]
          rw [hres]

/-- C2, counterexample: the claim quantifies over every specifier that is
not relative, but the locator dispatches to alias resolution only for
specifiers starting with `@` (src/utils/pathResolution.ts line 91).  The
bare specifier `"lib"` is not relative, the very first probe combination
(project root, bare joined path, extension `.ts`) exists on the
filesystem, and yet resolution yields `null` and the import is skipped. -/
theorem c2_counterexample :
    resolveOneImport
        { fsExists := fun p => p = "/w/lib.ts", readFile := fun _ => none,
          parseImports := fun _ => [], workspaceRoot := "/w", tsconfigPaths := [] }
        "/w/main.ts" "lib" = Except.ok none ∧
    (fun p => p = "/w/lib.ts" : String → Bool) (joinPath ["/w", "", "lib"] ++ ".ts") = true ∧
    strStartsWith "lib" "." = false := by
  exact ⟨by rfl, by decide, by decide⟩

/-- C2, amended: for every specifier that starts with `@` (the locator's
actual dispatch condition; other non-relative specifiers are skipped
without any probing), resolution resolves the specifier through the alias
resolver built from the config's path table, probes for the first resolved
target only the bare joined path, then `/page`, then `/index`, under each
base directory in the fixed order project root, `src`, `app`, trying
extensions `.ts`, `.tsx`, `.js`, `.jsx` in order for each probe, returns
the first existing file, and returns `null` when all combinations are
exhausted (an empty resolved target list makes `path.join` throw, which
the traversal catches). -/
theorem c2_alias_probe_order (env : Env) (cur sp : String)
    (h : strStartsWith sp "@" = true) :
    resolveOneImport env cur sp =
      match (resolvePath (mkPathResolver env.tsconfigPaths) sp).resolved with
      | [] => .error ()
      | r0 :: _ =>
        .ok (firstExisting env (aliasProbeCandidates env.workspaceRoot r0)) := by
  unfold resolveOneImport
  rw [if_pos h]
  unfold resolveAliasPath
  rw [resolveAliasBaseDirs_flatten env env.workspaceRoot sp
    (mkPathResolver env.tsconfigPaths) possibleBaseDirs (by simp [possibleBaseDirs])]
  rfl

/-- Witness for C2's amended theorem: the aliased specifier `"@c/button"`
resolves through the table `{"@c/": ["components/"]}` and is found under
the `src` base directory with extension `.tsx`. -/
theorem c2_witness :
    strStartsWith "@c/button" "@" = true ∧
    resolveOneImport
        { fsExists := fun p => p = "/w/src/components/button.tsx",
          readFile := fun _ => none, parseImports := fun _ => [],
          workspaceRoot := "/w", tsconfigPaths := [("@c/", ["components/"])] }
        "/w/main.ts" "@c/button" =
      Except.ok (some "/w/src/components/button.tsx") := by
  constructor
  · decide
  · rw [c2_alias_probe_order _ "/w/main.ts" "@c/button" (by decide)]
    rfl

theorem resolveImportsList_skip (env : Env) (d : Nat)
    (recurse : List ImportInfo → String → List String → List RTree × List String)
    (cur : String) (bad : ImportInfo) (h : resolutionFails env cur d bad) :
    ∀ (rest : List ImportInfo) (ps : List String),
      resolveImportsList env d recurse (bad :: rest) cur ps =
        resolveImportsList env d recurse rest cur ps := by
  intro rest ps
  rcases h with herr | hnone | ⟨rp, hsome, hd, hread⟩
  · simp only [resolveImportsList, herr]
  · simp only [resolveImportsList, hnone]
  · simp only [resolveImportsList, hsome]
    by_cases hmem : rp ∈ ps
    · simp [hmem]
    · simp [hmem, hd, hread]

theorem resolveImportsList_omit (env : Env) (d : Nat)
    (recurse : List ImportInfo → String → List String → List RTree × List String)
    (cur : String) (bad : ImportInfo) (h : resolutionFails env cur d bad) :
    ∀ (pre post : List ImportInfo) (ps : List String),
      resolveImportsList env d recurse (pre ++ bad :: post) cur ps =
        resolveImportsList env d recurse (pre ++ post) cur ps := by
  intro pre
  induction pre with
  | nil => intro post ps; exact resolveImportsList_skip env d recurse cur bad h post ps
  | cons imp pre' ih =>
    intro post ps
    simp only [List.cons_append, resolveImportsList]
    cases hro : resolveOneImport env cur imp.source with
    | error e => exact ih post ps
    | ok o =>
      cases o with
      | none => exact ih post ps
      | some rp =>
        by_cases hmem : rp ∈ ps
        · simp only [if_pos hmem]
          exact ih post ps
        · simp only [if_neg hmem]
          by_cases hd : 1 < d
          · simp only [if_pos hd]
            cases hrf : env.readFile rp with
            | none => exact ih post ps
            | some text =>
              have hrec :=
                ih post (insertPath
                  (recurse (env.parseImports text) rp (insertPath ps rp)).2 rp)
              simp only [List.append_eq, hrec]
          · simp only [if_neg hd]
            have hrec := ih post (insertPath ps rp)
            simp only [List.append_eq, hrec]

/-- C9: a resolution failure for one import (the specifier cannot be
resolved to an existing file, or reading the resolved file throws) causes
exactly that import to be omitted from the traversal: the result, both
forest and processed set, is the one of the import list without it, so the
traversal continues with the remaining imports and completes normally. -/
theorem c9_failure_omits_only_that_import (env : Env) (pre post : List ImportInfo)
    (bad : ImportInfo) (cur : String) (d : Nat) (ps : List String)
    (h : resolutionFails env cur d bad) :
    resolveImportPaths env (pre ++ bad :: post) cur d ps =
      resolveImportPaths env (pre ++ post) cur d ps := by
  unfold resolveImportPaths
  cases d with
  | zero =>
    exact resolveImportsList_omit env 0 (fun _ _ ps => ([], ps)) cur bad h pre post
      (insertPath ps cur)
  | succ d' =>
    exact resolveImportsList_omit env (d' + 1) (resolveGo env d') cur bad h pre post
      (insertPath ps cur)

/-- Witness for C9: the unresolvable import `"./missing"` is omitted and
the traversal of the remaining import `"./good"` is unaffected. -/
theorem c9_witness :
    resolveOneImport envC9 "/w/main.ts" "./missing" = Except.ok none ∧
    resolveImportPaths envC9 [⟨"./missing", [], ""⟩, ⟨"./good", [], ""⟩]
        "/w/main.ts" 1 [] =
      resolveImportPaths envC9 [⟨"./good", [], ""⟩] "/w/main.ts" 1 [] := by
  constructor
  · rfl
  · exact c9_failure_omits_only_that_import envC9 [] [⟨"./good", [], ""⟩]
      ⟨"./missing", [], ""⟩ "/w/main.ts" 1 [] (Or.inr (Or.inl (by rfl)))

theorem resolveImportsList_nested_none (env : Env) (d : Nat)
    (recurse : List ImportInfo → String → List String → List RTree × List String)
    (hd : ¬ 1 < d) :
    ∀ (imps : List ImportInfo) (cur : String) (ps : List String) (t : RTree),
      t ∈ (resolveImportsList env d recurse imps cur ps).1 →
        t.nestedImports = none := by
  intro imps
  induction imps with
  | nil =>
    intro cur ps t ht
    simp [resolveImportsList] at ht
  | cons imp rest ih =>
    intro cur ps t ht
    cases hro : resolveOneImport env cur imp.source with
    | error e =>
      simp only [resolveImportsList, hro] at ht
      exact ih cur ps t ht
    | ok o =>
      cases o with
      | none =>
        simp only [resolveImportsList, hro] at ht
        exact ih cur ps t ht
      | some rp =>
        simp only [resolveImportsList, hro] at ht
        by_cases hmem : rp ∈ ps
        · rw [if_pos hmem] at ht
          exact ih cur ps t ht
        · rw [if_neg hmem, if_neg hd] at ht
          simp only [List.mem_cons] at ht
          rcases ht with rfl | ht
          · rfl
          · exact ih cur (insertPath ps rp) t ht

theorem resolveImportsList_depth (env : Env) (d : Nat)
    (recurse : List ImportInfo → String → List String → List RTree × List String)
    (hrec : ∀ imps cur ps, forestDepth (recurse imps cur ps).1 ≤ max (d - 1) 1) :
    ∀ (imps : List ImportInfo) (cur : String) (ps : List String),
      forestDepth (resolveImportsList env d recurse imps cur ps).1 ≤ max d 1 := by
  intro imps
  induction imps with
  | nil =>
    intro cur ps
    simp [resolveImportsList, forestDepth]
  | cons imp rest ih =>
    intro cur ps
    cases hro : resolveOneImport env cur imp.source with
    | error e =>
      simp only [resolveImportsList, hro]
      exact ih cur ps
    | ok o =>
      cases o with
      | none =>
        simp only [resolveImportsList, hro]
        exact ih cur ps
      | some rp =>
        simp only [resolveImportsList, hro]
        by_cases hmem : rp ∈ ps
        · rw [if_pos hmem]
          exact ih cur ps
        · rw [if_neg hmem]
          by_cases hd : 1 < d
          · rw [if_pos hd]
            cases hrf : env.readFile rp with
            | none => exact ih cur ps
            | some text =>
              simp only [forestDepth]
              have h1 := hrec (env.parseImports text) rp (insertPath ps rp)
              have h2 := ih cur
                (insertPath (recurse (env.parseImports text) rp (insertPath ps rp)).2 rp)
              have hmax : max (d - 1) 1 = d - 1 := Nat.max_eq_left (by omega)
              rw [hmax] at h1
              refine Nat.max_le.mpr ⟨by omega, le_trans h2 (le_refl _)⟩
          · rw [if_neg hd]
            simp only [forestDepth]
            have h2 := ih cur (insertPath ps rp)
            refine Nat.max_le.mpr ⟨by omega, le_trans h2 (le_refl _)⟩

theorem resolveGo_depth (env : Env) :
    ∀ (d : Nat) (imps : List ImportInfo) (cur : String) (ps : List String),
      forestDepth (resolveGo env d imps cur ps).1 ≤ max d 1 := by
  intro d
  induction d with
  | zero =>
    intro imps cur ps
    exact resolveImportsList_depth env 0 (fun _ _ ps => ([], ps))
      (fun _ _ _ => by simp [forestDepth]) imps cur ps
  | succ d' ih =>
    intro imps cur ps
    exact resolveImportsList_depth env (d' + 1) (resolveGo env d')
      (fun imps' cur' ps' => by simpa using ih imps' cur' ps') imps cur ps

theorem resolveImportsList_within (env : Env) (d : Nat)
    (recurse : List ImportInfo → String → List String → List RTree × List String)
    (hrec : ∀ imps cur ps, forestWithin (d - 1) (recurse imps cur ps).1 = true) :
    ∀ (imps : List ImportInfo) (cur : String) (ps : List String),
      forestWithin d (resolveImportsList env d recurse imps cur ps).1 = true := by
  intro imps
  induction imps with
  | nil =>
    intro cur ps
    simp [resolveImportsList, forestWithin]
  | cons imp rest ih =>
    intro cur ps
    cases hro : resolveOneImport env cur imp.source with
    | error e =>
      simp only [resolveImportsList, hro]
      exact ih cur ps
    | ok o =>
      cases o with
      | none =>
        simp only [resolveImportsList, hro]
        exact ih cur ps
      | some rp =>
        simp only [resolveImportsList, hro]
        by_cases hmem : rp ∈ ps
        · rw [if_pos hmem]
          exact ih cur ps
        · rw [if_neg hmem]
          by_cases hd : 1 < d
          · rw [if_pos hd]
            cases hrf : env.readFile rp with
            | none => exact ih cur ps
            | some text =>
              simp only [forestWithin, Bool.and_eq_true]
              exact ⟨⟨by simpa using hd,
                hrec (env.parseImports text) rp (insertPath ps rp)⟩,
                ih cur (insertPath
                  (recurse (env.parseImports text) rp (insertPath ps rp)).2 rp)⟩
          · rw [if_neg hd]
            simp only [forestWithin]
            exact ih cur (insertPath ps rp)

theorem resolveGo_within (env : Env) :
    ∀ (d : Nat) (imps : List ImportInfo) (cur : String) (ps : List String),
      forestWithin d (resolveGo env d imps cur ps).1 = true := by
  intro d
  induction d with
  | zero =>
    intro imps cur ps
    exact resolveImportsList_within env 0 (fun _ _ ps => ([], ps))
      (fun _ _ _ => by simp [forestWithin]) imps cur ps
  | succ d' ih =>
    intro imps cur ps
    exact resolveImportsList_within env (d' + 1) (resolveGo env d')
      (fun imps' cur' ps' => by simpa using ih imps' cur' ps') imps cur ps

/-- C5: with `maxDepth = 1` no node of the returned forest carries a
`nestedImports` list; with `maxDepth = N ≥ 1` the deepest path of the
forest is at most `N` hops from the root; and depth is a per-branch
ceiling: a node carries nested imports only when more than one level was
remaining, and every child of such a node is within the same remaining
ceiling `N - 1` (`forestWithin`), whichever sibling branch it sits in. -/
theorem c5_depth_semantics (env : Env) (imports : List ImportInfo)
    (currentFilePath : String) (ps : List String) :
    (∀ t ∈ (resolveImportPaths env imports currentFilePath 1 ps).1,
      t.nestedImports = none) ∧
    (∀ d, 1 ≤ d →
      forestDepth (resolveImportPaths env imports currentFilePath d ps).1 ≤ d) ∧
    (∀ d, forestWithin d (resolveImportPaths env imports currentFilePath d ps).1
      = true) := by
  refine ⟨?_, ?_, ?_⟩
  · intro t ht
    exact resolveImportsList_nested_none env 1 (resolveGo env 0) (by omega)
      imports currentFilePath (insertPath ps currentFilePath) t ht
  · intro d hd
    have := resolveGo_depth env d imports currentFilePath (insertPath ps currentFilePath)
    have hmax : max d 1 = d := Nat.max_eq_left hd
    rw [hmax] at this
    exact this
  · intro d
    exact resolveGo_within env d imports currentFilePath (insertPath ps currentFilePath)

/-- Witness for C5 at a concrete environment: with depth 1 the single
resolved node carries no nested list, and with depth 2 the forest depth is
at most 2. -/
theorem c5_witness :
    (RTree.mk ⟨"./a", [], "/w/a.ts"⟩ none).nestedImports = none ∧
    forestDepth (resolveImportPaths envC5 [⟨"./a", [], ""⟩] "/w/m.ts" 2 []).1 ≤ 2 := by
  constructor
  · refine (c5_depth_semantics envC5 [⟨"./a", [], ""⟩] "/w/m.ts" []).1
      (RTree.mk ⟨"./a", [], "/w/a.ts"⟩ none) ?_
    rw [show (resolveImportPaths envC5 [⟨"./a", [], ""⟩] "/w/m.ts" 1 []).1 =
      [RTree.mk ⟨"./a", [], "/w/a.ts"⟩ none] from rfl]
    exact List.mem_singleton.mpr rfl
  · exact (c5_depth_semantics envC5 [⟨"./a", [], ""⟩] "/w/m.ts" []).2.1 2 (by omega)

theorem mem_insertPath_self (ps : List String) (p : String) : p ∈ insertPath ps p := by
  unfold insertPath
  by_cases h : p ∈ ps
  · rwa [if_pos h]
  · rw [if_neg h]
    exact List.mem_cons_self p ps

theorem mem_insertPath_of_mem (ps : List String) (p x : String) (h : x ∈ ps) :
    x ∈ insertPath ps p := by
  unfold insertPath
  by_cases hp : p ∈ ps
  · rwa [if_pos hp]
  · rw [if_neg hp]
    exact List.mem_cons_of_mem p h

theorem resolveImportsList_inv (env : Env) (d : Nat)
    (recurse : List ImportInfo → String → List String → List RTree × List String)
    (hrec : ∀ imps cur ps,
      pathsProp ps (recurse imps cur ps).2 (recurse imps cur ps).1) :
    ∀ (imps : List ImportInfo) (cur : String) (ps : List String),
      pathsProp ps (resolveImportsList env d recurse imps cur ps).2
        (resolveImportsList env d recurse imps cur ps).1 := by
  intro imps
  induction imps with
  | nil =>
    intro cur ps
    exact ⟨fun x hx => hx, by simp [resolveImportsList, forestPaths],
      by simp [resolveImportsList, forestPaths]⟩
  | cons imp rest ih =>
    intro cur ps
    cases hro : resolveOneImport env cur imp.source with
    | error e =>
      simp only [resolveImportsList, hro]
      exact ih cur ps
    | ok o =>
      cases o with
      | none =>
        simp only [resolveImportsList, hro]
        exact ih cur ps
      | some rp =>
        simp only [resolveImportsList, hro]
        by_cases hmem : rp ∈ ps
        · rw [if_pos hmem]
          exact ih cur ps
        · rw [if_neg hmem]
          by_cases hd : 1 < d
          · rw [if_pos hd]
            cases hrf : env.readFile rp with
            | none => exact ih cur ps
            | some text =>
              obtain ⟨hn1, hn2, hn3⟩ := hrec (env.parseImports text) rp (insertPath ps rp)
              obtain ⟨hm1, hm2, hm3⟩ := ih cur (insertPath
                (recurse (env.parseImports text) rp (insertPath ps rp)).2 rp)
              set nested := recurse (env.parseImports text) rp (insertPath ps rp) with hnested
              set more := resolveImportsList env d recurse rest cur (insertPath nested.2 rp)
                with hmore
              have hsub1 : ∀ x ∈ ps, x ∈ nested.2 :=
                fun x hx => hn1 x (mem_insertPath_of_mem ps rp x hx)
              have hsub2 : ∀ x ∈ nested.2, x ∈ more.2 :=
                fun x hx => hm1 x (mem_insertPath_of_mem nested.2 rp x hx)
              have hrpmore : rp ∈ more.2 := hm1 rp (mem_insertPath_self nested.2 rp)
              have hAfresh : ∀ q ∈ forestPaths nested.1, q ∉ insertPath ps rp ∧ q ∈ nested.2 :=
                hn3
              have hBfresh : ∀ q ∈ forestPaths more.1,
                  q ∉ insertPath nested.2 rp ∧ q ∈ more.2 := hm3
              refine ⟨fun x hx => hsub2 x (hsub1 x hx), ?_, ?_⟩
              · show (forestPaths (RTree.mk { imp with resolvedPath := rp }
                  (some nested.1) :: more.1)).Nodup
                rw [forestPaths]
                refine List.nodup_cons.mpr ⟨?_, ?_⟩
                · intro hin
                  rcases List.mem_append.mp hin with hA | hB
                  · exact (hAfresh rp hA).1 (mem_insertPath_self ps rp)
                  · exact (hBfresh rp hB).1 (mem_insertPath_self nested.2 rp)
                · refine List.nodup_append.mpr ⟨hn2, hm2, ?_⟩
                  intro q hA hB
                  exact (hBfresh q hB).1
                    (mem_insertPath_of_mem nested.2 rp q (hAfresh q hA).2)
              · intro q hq
                rw [forestPaths] at hq
                rcases List.mem_cons.mp hq with rfl | hq'
                · exact ⟨hmem, hrpmore⟩
                · rcases List.mem_append.mp hq' with hA | hB
                  · refine ⟨fun hqps => (hAfresh q hA).1
                      (mem_insertPath_of_mem ps rp q hqps), hsub2 q (hAfresh q hA).2⟩
                  · refine ⟨fun hqps => (hBfresh q hB).1
                      (mem_insertPath_of_mem nested.2 rp q
                        (hsub1 q hqps)), (hBfresh q hB).2⟩
          · rw [if_neg hd]
            obtain ⟨hm1, hm2, hm3⟩ := ih cur (insertPath ps rp)
            set more := resolveImportsList env d recurse rest cur (insertPath ps rp)
              with hmore
            have hrpmore : rp ∈ more.2 := hm1 rp (mem_insertPath_self ps rp)
            refine ⟨fun x hx => hm1 x (mem_insertPath_of_mem ps rp x hx), ?_, ?_⟩
            · show (forestPaths (RTree.mk { imp with resolvedPath := rp } none
                :: more.1)).Nodup
              rw [forestPaths]
              refine List.nodup_cons.mpr ⟨?_, hm2⟩
              intro hin
              exact (hm3 rp hin).1 (mem_insertPath_self ps rp)
            · intro q hq
              rw [forestPaths] at hq
              rcases List.mem_cons.mp hq with rfl | hq'
              · exact ⟨hmem, hrpmore⟩
              · exact ⟨fun hqps => (hm3 q hq').1 (mem_insertPath_of_mem ps rp q hqps),
                  (hm3 q hq').2⟩

theorem resolveGo_inv (env : Env) :
    ∀ (d : Nat) (imps : List ImportInfo) (cur : String) (ps : List String),
      pathsProp ps (resolveGo env d imps cur ps).2 (resolveGo env d imps cur ps).1 := by
  intro d
  induction d with
  | zero =>
    intro imps cur ps
    exact resolveImportsList_inv env 0 (fun _ _ ps => ([], ps))
      (fun _ _ ps => ⟨fun x hx => hx, by simp [forestPaths], by simp [forestPaths]⟩)
      imps cur ps
  | succ d' ih =>
    intro imps cur ps
    exact resolveImportsList_inv env (d' + 1) (resolveGo env d')
      (fun imps' cur' ps' => ih imps' cur' ps') imps cur ps

/-- C1: for every import list, starting file path, `maxDepth ≥ 1` and
initial processed-paths set, the resolved paths of all nodes of the
returned forest, listed in traversal order, are pairwise distinct — so no
node shares a resolved path with an ancestor or with any node emitted
earlier in the same traversal, even when two source files import the same
target — and no node's resolved path equals the starting file's path or
any member of the initial set.  The traversal terminates on import cycles
by construction: the embedding is a total function for every environment,
every depth and in particular for self- or mutually-referential
`readFile`/`parseImports` cycles, which the shared processed-path set cuts
off. -/
theorem c1_dedup_invariant (env : Env) (imports : List ImportInfo)
    (currentFilePath : String) (maxDepth : Nat) (processedPaths : List String)
    (_h : 1 ≤ maxDepth) :
    (forestPaths (resolveImportPaths env imports currentFilePath maxDepth
      processedPaths).1).Nodup ∧
    (∀ q ∈ forestPaths (resolveImportPaths env imports currentFilePath maxDepth
        processedPaths).1,
      q ≠ currentFilePath ∧ q ∉ processedPaths) := by
  obtain ⟨h1, h2, h3⟩ := resolveGo_inv env maxDepth imports currentFilePath
    (insertPath processedPaths currentFilePath)
  refine ⟨h2, fun q hq => ?_⟩
  obtain ⟨hfresh, _⟩ := h3 q hq
  constructor
  · intro hqc
    exact hfresh (hqc ▸ mem_insertPath_self processedPaths currentFilePath)
  · intro hqps
    exact hfresh (mem_insertPath_of_mem processedPaths currentFilePath q hqps)

/-- Witness for C1 at a concrete environment with a two-way import cycle
between `/w/a.ts` and `/w/b.ts`, depth 4. -/
theorem c1_witness :
    (forestPaths (resolveImportPaths
      { fsExists := fun p => p = "/w/a.ts" || p = "/w/b.ts",
        readFile := fun p => if p = "/w/a.ts" then some "B" else some "A",
        parseImports := fun t => if t = "B" then [⟨"./b", [], ""⟩]
          else [⟨"./a", [], ""⟩],
        workspaceRoot := "/w", tsconfigPaths := [] }
      [⟨"./b", [], ""⟩] "/w/a.ts" 4 []).1).Nodup :=
  (c1_dedup_invariant _ [⟨"./b", [], ""⟩] "/w/a.ts" 4 [] (by omega)).1

theorem aliasBefore_asymm (x y : String × List String)
    (h : aliasBefore y x = true) : aliasBefore x y = false := by
  unfold aliasBefore at h ⊢
  cases hx : isGlobPattern x.1 <;> cases hy : isGlobPattern y.1 <;>
    simp [hx, hy] at h ⊢ <;> omega

theorem aliasBefore_notrans (x y z : String × List String)
    (hzy : aliasBefore z y = false) (hyx : aliasBefore y x = false) :
    aliasBefore z x = false := by
  unfold aliasBefore at hzy hyx ⊢
  cases hx : isGlobPattern x.1 <;> cases hy : isGlobPattern y.1 <;>
    cases hz : isGlobPattern z.1 <;> simp_all <;> omega

theorem mem_insertAlias (x : String × List String) :
    ∀ (l : AliasMap) (y : String × List String),
      y ∈ insertAlias x l ↔ y = x ∨ y ∈ l := by
  intro l
  induction l with
  | nil => intro y; simp [insertAlias]
  | cons z l ih =>
    intro y
    unfold insertAlias
    by_cases hb : aliasBefore z x = true
    · rw [if_pos hb]
      simp only [List.mem_cons, ih]
      tauto
    · rw [if_neg hb]
      simp

theorem pairwise_insertAlias (x : String × List String) :
    ∀ l : AliasMap, List.Pairwise (fun u v => aliasBefore v u = false) l →
      List.Pairwise (fun u v => aliasBefore v u = false) (insertAlias x l) := by
  intro l
  induction l with
  | nil => intro _; simp [insertAlias]
  | cons y l ih =>
    intro hp
    rw [List.pairwise_cons] at hp
    obtain ⟨hy, hl⟩ := hp
    unfold insertAlias
    by_cases hb : aliasBefore y x = true
    · rw [if_pos hb]
      rw [List.pairwise_cons]
      refine ⟨?_, ih hl⟩
      intro z hz
      rcases (mem_insertAlias x l z).mp hz with rfl | hzl
      · exact aliasBefore_asymm _ _ hb
      · exact hy z hzl
    · rw [if_neg hb]
      have hbx : aliasBefore y x = false := Bool.eq_false_iff.mpr hb
      rw [List.pairwise_cons]
      refine ⟨?_, List.pairwise_cons.mpr ⟨hy, hl⟩⟩
      intro z hz
      rcases List.mem_cons.mp hz with rfl | hzl
      · exact hbx
      · exact aliasBefore_notrans _ _ _ (hy z hzl) hbx

theorem pairwise_sortAliases (m : AliasMap) :
    List.Pairwise (fun u v => aliasBefore v u = false) (sortAliases m) := by
  induction m with
  | nil => simp [sortAliases]
  | cons e m ih => exact pairwise_insertAlias e (sortAliases m) ih

theorem mem_sortAliases (m : AliasMap) (e : String × List String) :
    e ∈ sortAliases m ↔ e ∈ m := by
  induction m with
  | nil => simp [sortAliases]
  | cons f m ih =>
    show e ∈ insertAlias f (sortAliases m) ↔ _
    rw [mem_insertAlias f (sortAliases m) e, ih]
    simp

theorem findFirstMatch_literal_first (np : String) :
    ∀ l : AliasMap, List.Pairwise (fun u v => aliasBefore v u = false) l →
      (∃ e ∈ l, isGlobPattern e.1 = false ∧ aliasMatches np e.1 = true) →
      ∃ e', findFirstMatch np l = some e' ∧ isGlobPattern e'.1 = false := by
  intro l
  induction l with
  | nil =>
    rintro _ ⟨e, he, _⟩
    cases he
  | cons h l ih =>
    rintro hp ⟨e, he, hlit, hmatch⟩
    rw [List.pairwise_cons] at hp
    by_cases hm : aliasMatches np h.1 = true
    · refine ⟨h, by simp [findFirstMatch, hm], ?_⟩
      by_cases hg : isGlobPattern h.1 = true
      · exfalso
        have hne : e ≠ h := by
          intro heq
          rw [heq] at hlit
          rw [hlit] at hg
          cases hg
        have hel : e ∈ l := by
          rcases List.mem_cons.mp he with rfl | h'
          · exact absurd rfl hne
          · exact h'
        have hbefore : aliasBefore e h = true := by
          unfold aliasBefore
          rw [hlit, hg]
          simp
        have hfalse := hp.1 e hel
        rw [hfalse] at hbefore
        cases hbefore
      · exact Bool.eq_false_iff.mpr hg
    · have hne : e ≠ h := fun heq => hm (heq ▸ hmatch)
      have hel : e ∈ l := by
        rcases List.mem_cons.mp he with rfl | h'
        · exact absurd rfl hne
        · exact h'
      obtain ⟨e', he', hg'⟩ := ih hp.2 ⟨e, hel, hlit, hmatch⟩
      exact ⟨e', by simp [findFirstMatch, hm, he'], hg'⟩

/-- C4: whenever some literal (non-glob) alias of the table could match a
specifier, `resolvePath` matches and the selected alias is a literal one,
regardless of declaration order or pattern lengths; and the scan order is
sorted so that no literal pattern comes after a glob pattern and, within a
class, patterns appear in order of non-increasing length (longer patterns
are tried before shorter ones). -/
theorem c4_literal_beats_glob (m : AliasMap) (p : String) :
    ((∃ e ∈ m, isGlobPattern e.1 = false ∧
        aliasMatches (normalizeSlashes p) e.1 = true) →
      (resolvePath m p).matched = true ∧
      ∃ al, (resolvePath m p).usedAlias = some al ∧ isGlobPattern al = false) ∧
    List.Pairwise (fun x y =>
      (isGlobPattern x.1 = true → isGlobPattern y.1 = true) ∧
      (isGlobPattern x.1 = isGlobPattern y.1 →
        y.1.data.length ≤ x.1.data.length)) (sortAliases m) := by
  constructor
  · rintro ⟨e, he, hlit, hmatch⟩
    have hsorted := pairwise_sortAliases m
    have hmem : e ∈ sortAliases m := (mem_sortAliases m e).mpr he
    obtain ⟨e', hfind, hg'⟩ :=
      findFirstMatch_literal_first (normalizeSlashes p) (sortAliases m) hsorted
        ⟨e, hmem, hlit, hmatch⟩
    unfold resolvePath
    simp only [hfind]
    exact ⟨by trivial, e'.1, by trivial, hg'⟩
  · refine (pairwise_sortAliases m).imp ?_
    intro x y hxy
    unfold aliasBefore at hxy
    cases hx : isGlobPattern x.1 <;> cases hy : isGlobPattern y.1 <;>
      simp [hx, hy] at hxy ⊢ <;> omega

/-- Witness for C4: the table declares the glob `"@g/*"` before the
literal `"@g/x"`; both could match the specifier `"@g/x"`, and the
literal wins. -/
theorem c4_witness :
    (resolvePath [("@g/*", ["gen/*"]), ("@g/x", ["lib/x"])] "@g/x").matched = true ∧
    ∃ al, (resolvePath [("@g/*", ["gen/*"]), ("@g/x", ["lib/x"])] "@g/x").usedAlias
        = some al ∧ isGlobPattern al = false :=
  (c4_literal_beats_glob [("@g/*", ["gen/*"]), ("@g/x", ["lib/x"])] "@g/x").1
    ⟨("@g/x", ["lib/x"]), by decide, by decide, by decide⟩

theorem insertAlias_nodup (x : String × List String) :
    ∀ l : AliasMap, x ∉ l → l.Nodup → (insertAlias x l).Nodup := by
  intro l
  induction l with
  | nil => intro _ _; simp [insertAlias]
  | cons y l ih =>
    intro hx hn
    rw [List.nodup_cons] at hn
    unfold insertAlias
    by_cases hb : aliasBefore y x = true
    · rw [if_pos hb]
      rw [List.nodup_cons]
      refine ⟨?_, ih (fun h => hx (List.mem_cons_of_mem y h)) hn.2⟩
      intro hy
      rcases (mem_insertAlias x l y).mp hy with rfl | hyl
      · exact hx (List.mem_cons_self y l)
      · exact hn.1 hyl
    · rw [if_neg hb]
      rw [List.nodup_cons]
      exact ⟨fun h => hx (by simpa using h), List.nodup_cons.mpr hn⟩

theorem sortAliases_nodup (m : AliasMap) (hm : m.Nodup) : (sortAliases m).Nodup := by
  induction m with
  | nil => simp [sortAliases]
  | cons e m ih =>
    rw [List.nodup_cons] at hm
    exact insertAlias_nodup e (sortAliases m)
      (fun h => hm.1 ((mem_sortAliases m e).mp h)) (ih hm.2)

theorem filter_insertAlias (P : String × List String → Bool)
    (x : String × List String)
    (hx : P x = true → ∀ y, aliasBefore y x = true → P y = false) :
    ∀ l : AliasMap,
      (insertAlias x l).filter P =
        if P x then x :: l.filter P else l.filter P := by
  intro l
  induction l with
  | nil =>
    simp only [insertAlias, List.filter]
    by_cases hPx : P x = true
    · simp [hPx]
    · simp [Bool.eq_false_iff.mpr hPx]
  | cons y l ih =>
    unfold insertAlias
    by_cases hb : aliasBefore y x = true
    · rw [if_pos hb]
      by_cases hPx : P x = true
      · have hPy : P y = false := hx hPx y hb
        simp only [List.filter_cons, hPy, hPx, ih]
        simp [hPx, hPy]
      · have hPx' : P x = false := Bool.eq_false_iff.mpr hPx
        simp only [List.filter_cons, ih, hPx']
        simp
    · rw [if_neg hb]
      by_cases hPx : P x = true
      · simp [List.filter_cons, hPx]
      · simp [List.filter_cons, Bool.eq_false_iff.mpr hPx]

theorem filter_sortAliases (P : String × List String → Bool)
    (hP : ∀ x, P x = true → ∀ y, aliasBefore y x = true → P y = false)
    (m : AliasMap) : (sortAliases m).filter P = m.filter P := by
  induction m with
  | nil => simp [sortAliases]
  | cons e m ih =>
    show (insertAlias e (sortAliases m)).filter P = _
    rw [filter_insertAlias P e (hP e) (sortAliases m), ih]
    by_cases hPe : P e = true
    · simp [List.filter_cons, hPe]
    · simp [List.filter_cons, Bool.eq_false_iff.mpr hPe]

theorem tieClass_respects (g : Bool) (n : Nat) :
    ∀ x, tieClass g n x = true →
      ∀ y, aliasBefore y x = true → tieClass g n y = false := by
  intro x hx y hb
  unfold tieClass at hx ⊢
  unfold aliasBefore at hb
  cases hgx : isGlobPattern x.1 <;> cases hgy : isGlobPattern y.1 <;>
    simp_all <;> omega

theorem findFirstMatch_split (np : String) :
    ∀ (l : AliasMap) (e : String × List String),
      findFirstMatch np l = some e →
        ∃ l₁ l₂, l = l₁ ++ e :: l₂ ∧ ∀ y ∈ l₁, aliasMatches np y.1 = false := by
  intro l
  induction l with
  | nil => intro e h; cases h
  | cons z l ih =>
    intro e h
    unfold findFirstMatch at h
    by_cases hm : aliasMatches np z.1 = true
    · rw [if_pos hm] at h
      obtain rfl := Option.some.inj h
      exact ⟨[], l, rfl, by simp⟩
    · rw [if_neg hm] at h
      obtain ⟨l₁, l₂, rfl, hnone⟩ := ih e h
      refine ⟨z :: l₁, l₂, rfl, ?_⟩
      intro y hy
      rcases List.mem_cons.mp hy with rfl | hyl
      · exact Bool.eq_false_iff.mpr hm
      · exact hnone y hyl

theorem append_cons_inj_of_not_mem {α : Type} :
    ∀ (X X' Y Y' : List α) (e : α),
      X ++ e :: Y = X' ++ e :: Y' → e ∉ X → e ∉ X' → X = X' ∧ Y = Y' := by
  intro X
  induction X with
  | nil =>
    intro X' Y Y' e h he he'
    cases X' with
    | nil =>
      simp only [List.nil_append] at h
      exact ⟨rfl, (List.cons.injEq _ _ _ _).mp h |>.2⟩
    | cons x' X'' =>
      simp only [List.nil_append, List.cons_append] at h
      obtain ⟨rfl, _⟩ := (List.cons.injEq _ _ _ _).mp h
      exact absurd (List.mem_cons_self _ _) he'
  | cons x X ih =>
    intro X' Y Y' e h he he'
    cases X' with
    | nil =>
      simp only [List.cons_append, List.nil_append] at h
      obtain ⟨rfl, _⟩ := (List.cons.injEq _ _ _ _).mp h
      exact absurd (List.mem_cons_self _ _) he
    | cons x' X'' =>
      simp only [List.cons_append] at h
      obtain ⟨rfl, htail⟩ := (List.cons.injEq _ _ _ _).mp h
      obtain ⟨h1, h2⟩ := ih X'' Y Y' e htail
        (fun hh => he (List.mem_cons_of_mem _ hh))
        (fun hh => he' (List.mem_cons_of_mem _ hh))
      exact ⟨by rw [h1], h2⟩

theorem mem_eq_of_key_nodup {β : Type} :
    ∀ m : List (String × β), (m.map Prod.fst).Nodup →
      ∀ x y : String × β, x ∈ m → y ∈ m → x.1 = y.1 → x = y := by
  intro m
  induction m with
  | nil => intro _ x y hx _ _; cases hx
  | cons z m ih =>
    intro hn x y hx hy hk
    rw [List.map_cons, List.nodup_cons] at hn
    rcases List.mem_cons.mp hx with rfl | hx' <;>
      rcases List.mem_cons.mp hy with rfl | hy'
    · rfl
    · exact absurd (hk ▸ List.mem_map_of_mem Prod.fst hy') hn.1
    · exact absurd (hk ▸ List.mem_map_of_mem Prod.fst hx') hn.1
    · exact ih hn.2 x y hx' hy' hk

/-- C10: when two alias patterns tie in both ordering criteria (same
glob-versus-literal classification and equal pattern length), `resolvePath`
prefers the one declared earlier in the alias table: if the earlier of the
two matches the normalized specifier, the later one is never the selected
alias.  The sort of the scan is a stable insertion (JavaScript
`Array.prototype.sort` is stable), so tied entries keep table order, and
`resolvePath` is a pure function of the table and the specifier, so
resolution is deterministic. -/
theorem c10_tie_broken_by_declaration_order (m₁ m₂ m₃ : AliasMap)
    (a b : String) (ta tb : List String) (p : String)
    (hkeys : (((m₁ ++ (a, ta) :: m₂ ++ (b, tb) :: m₃) : AliasMap).map Prod.fst).Nodup)
    (hclass : isGlobPattern a = isGlobPattern b)
    (hlen : a.data.length = b.data.length)
    (hmatch : aliasMatches (normalizeSlashes p) a = true) :
    (resolvePath (m₁ ++ (a, ta) :: m₂ ++ (b, tb) :: m₃) p).usedAlias ≠ some b := by
  intro hused
  set m : AliasMap := m₁ ++ (a, ta) :: m₂ ++ (b, tb) :: m₃ with hm
  have hmemA : (a, ta) ∈ m := by simp [hm]
  have hmemB : (b, tb) ∈ m := by simp [hm]
  have hkeyshape : m.map Prod.fst =
      m₁.map Prod.fst ++ a :: m₂.map Prod.fst ++ b :: m₃.map Prod.fst := by
    simp [hm]
  have hnd : (m₁.map Prod.fst ++ a :: m₂.map Prod.fst ++ b :: m₃.map Prod.fst).Nodup := by
    rw [← hkeyshape]
    exact hkeys
  have hnd2 : ((m₁.map Prod.fst ++ a :: m₂.map Prod.fst) ++ b :: m₃.map Prod.fst).Nodup :=
    hnd
  have hab : a ≠ b := by
    intro hEq
    exact List.disjoint_of_nodup_append hnd2
      (List.mem_append.mpr (Or.inr (hEq ▸ List.mem_cons_self _ _)))
      (List.mem_cons_self _ _)
  have hbnotfront : b ∉ (m₁.map Prod.fst ++ a :: m₂.map Prod.fst) := by
    intro hbmem
    exact List.disjoint_of_nodup_append hnd2 hbmem (List.mem_cons_self _ _)
  -- the selected entry has key b
  obtain ⟨e, hf, heb⟩ : ∃ e, findFirstMatch (normalizeSlashes p) (sortAliases m)
      = some e ∧ e.1 = b := by
    unfold resolvePath at hused
    rcases hfm : findFirstMatch (normalizeSlashes p) (sortAliases m) with _ | e
    · simp only [hfm] at hused
      simp at hused
    · simp only [hfm] at hused
      simp only [Option.some.injEq] at hused
      exact ⟨e, rfl, hused⟩
  -- split the sorted list at the selected entry
  obtain ⟨l₁, l₂, hsplit, hnomatch⟩ := findFirstMatch_split _ _ _ hf
  have hemem : e ∈ m := by
    refine (mem_sortAliases m _).mp ?_
    rw [hsplit]
    exact List.mem_append.mpr (Or.inr (List.mem_cons_self _ _))
  have hE : e = (b, tb) :=
    mem_eq_of_key_nodup m hkeys e (b, tb) hemem hmemB heb
  rw [hE] at hsplit
  -- the tie-class filter is stable under the sort
  set P : String × List String → Bool := tieClass (isGlobPattern b) b.data.length
    with hP
  have hPa : P (a, ta) = true := by
    simp [hP, tieClass, hclass, hlen]
  have hPb : P (b, tb) = true := by
    simp [hP, tieClass]
  have hfilter : (sortAliases m).filter P = m.filter P :=
    filter_sortAliases P (tieClass_respects _ _) m
  have hfilterm : m.filter P =
      (m₁.filter P ++ (a, ta) :: m₂.filter P) ++ (b, tb) :: m₃.filter P := by
    rw [hm]
    simp [List.filter_append, List.filter_cons, hPa, hPb]
  have hfiltersplit : (sortAliases m).filter P =
      l₁.filter P ++ (b, tb) :: l₂.filter P := by
    rw [hsplit]
    simp [List.filter_append, List.filter_cons, hPb]
  -- nodup facts to identify the split around (b, tb)
  have hmnodup : m.Nodup := List.Nodup.of_map Prod.fst hkeys
  have hsortnodup : (sortAliases m).Nodup := sortAliases_nodup m hmnodup
  have hbnotl₁ : (b, tb) ∉ l₁ := by
    intro hmem
    rw [hsplit] at hsortnodup
    exact List.disjoint_of_nodup_append hsortnodup hmem (List.mem_cons_self _ _)
  have hbnotl₁f : (b, tb) ∉ l₁.filter P :=
    fun hmem => hbnotl₁ (List.mem_of_mem_filter hmem)
  have hbnotfrontf : (b, tb) ∉ m₁.filter P ++ (a, ta) :: m₂.filter P := by
    intro hmem
    apply hbnotfront
    rcases List.mem_append.mp hmem with h1 | h2
    · exact List.mem_append.mpr (Or.inl
        (List.mem_map_of_mem Prod.fst (List.mem_of_mem_filter h1)))
    · rcases List.mem_cons.mp h2 with heq | h3
      · exact absurd (congrArg Prod.fst heq).symm hab
      · exact List.mem_append.mpr (Or.inr (List.mem_cons_of_mem _
          (List.mem_map_of_mem Prod.fst (List.mem_of_mem_filter h3))))
  -- identify the two decompositions of the same filtered list
  have hEqlists : l₁.filter P ++ (b, tb) :: l₂.filter P =
      (m₁.filter P ++ (a, ta) :: m₂.filter P) ++ (b, tb) :: m₃.filter P := by
    rw [← hfiltersplit, hfilter, hfilterm]
  obtain ⟨hfront, _⟩ :=
    append_cons_inj_of_not_mem _ _ _ _ _ hEqlists hbnotl₁f hbnotfrontf
  -- (a, ta) sits in l₁, which contains no matching alias: contradiction
  have hal₁ : (a, ta) ∈ l₁ := by
    have hmem : (a, ta) ∈ l₁.filter P := by
      rw [hfront]
      exact List.mem_append.mpr (Or.inr (List.mem_cons_self _ _))
    exact List.mem_of_mem_filter hmem
  have hcontra := hnomatch (a, ta) hal₁
  rw [hmatch] at hcontra
  cases hcontra

/-- Witness for C10: the globs `"@a/*"` and `"*a/b"` tie (both globs of
length 4); declared in this order, the earlier `"@a/*"` matches `"@a/b"`
and the later `"*a/b"` is not selected. -/
theorem c10_witness :
    aliasMatches (normalizeSlashes "@a/b") "@a/*" = true ∧
    (resolvePath [("@a/*", ["t1/*"]), ("*a/b", ["t2"])] "@a/b").usedAlias ≠
      some "*a/b" ∧
    (resolvePath [("@a/*", ["t1/*"]), ("*a/b", ["t2"])] "@a/b").usedAlias =
      some "@a/*" :=
  ⟨by decide,
    c10_tie_broken_by_declaration_order [] [] [] "@a/*" "*a/b" ["t1/*"] ["t2"]
      "@a/b" (by decide) (by decide) (by decide) (by decide),
    by decide⟩

set_option maxHeartbeats 1000000 in
theorem findAux_eq_emitAll (info : ImportInfo) :
    ∀ (rest : List String) (i : Nat) (cur : Option CollectState)
      (seen : List String),
      findAux info rest i cur seen = emitAll info seen (scanAux rest i cur) := by
  intro rest
  induction rest with
  | nil =>
    intro i cur seen
    cases cur with
    | none => rfl
    | some st =>
      simp only [findAux, scanAux, emitAll, storeDecl]
      by_cases hc : st.name ∉ seen ∧ isImportedInAny st.name info
      · simp [hc]
      · simp [hc]
  | cons l rest ih =>
    intro i cur seen
    cases cur with
    | none =>
      simp only [findAux, scanAux]
      cases hp : parseDeclStart (jsTrim l) with
      | none => exact ih (i + 1) none seen
      | some nm => exact ih (i + 1) (some ⟨nm, i, [l], braceDelta (jsTrim l)⟩) seen
    | some st =>
      simp only [findAux, scanAux]
      by_cases hend : st.bracketCount + braceDelta (jsTrim l) = 0 ∧
          hasTerm (jsTrim l)
      · rw [if_pos hend, if_pos hend]
        simp only [storeDecl, emitAll]
        by_cases hc : st.name ∉ seen ∧ isImportedInAny st.name info
        · simp only [if_pos hc]
          exact congrArg _ (ih (i + 1) none (st.name :: seen))
        · simp only [if_neg hc]
          exact ih (i + 1) none seen
      · rw [if_neg hend, if_neg hend]
        exact ih (i + 1)
          (some ⟨st.name, st.startLine, st.buffer ++ [l],
            st.bracketCount + braceDelta (jsTrim l)⟩) seen

theorem emitAll_mem (info : ImportInfo) :
    ∀ (ds : List RawDecl) (seen : List String) (e : ExtractedContent),
      e ∈ emitAll info seen ds →
      ∃ d ∈ ds, e.name = d.name ∧
        e.content = formatDeclaration (intercalateNL d.buffer) ∧
        e.location = ⟨d.startLine, d.endLine⟩ := by
  intro ds
  induction ds with
  | nil => intro seen e he; cases he
  | cons d ds ih =>
    intro seen e he
    unfold emitAll at he
    by_cases hc : d.name ∉ seen ∧ isImportedInAny d.name info
    · rw [if_pos hc] at he
      rcases List.mem_cons.mp he with rfl | he'
      · exact ⟨d, List.mem_cons_self d ds, rfl, rfl, rfl⟩
      · obtain ⟨d', hd', h1, h2, h3⟩ := ih (d.name :: seen) e he'
        exact ⟨d', List.mem_cons_of_mem d hd', h1, h2, h3⟩
    · rw [if_neg hc] at he
      obtain ⟨d', hd', h1, h2, h3⟩ := ih seen e he
      exact ⟨d', List.mem_cons_of_mem d hd', h1, h2, h3⟩

/-- C7: the extractor's output is the scanner's declaration stream
filtered by the selection policy of `storeCurrentDeclaration`: a scanned
declaration is emitted iff its captured name is imported by the supplied
`ImportInfo` (equal to a binding's bound name, equal to a binding's alias,
default-import rule, or unconditionally when some binding is a
namespace import) and has not been emitted before in the same call (first occurrence
wins; later declarations with the same name are silently dropped) — the
`emitAll` pipeline is exactly this policy, threading the seen-name set
from left to right.  Moreover a namespace import makes every name count
as imported, so every top-level declaration found in the file is treated
as imported. -/
theorem c7_selection_policy (sourceCode : String) (importInfo : ImportInfo) :
    extractImportedEntities sourceCode importInfo =
      emitAll importInfo [] (scanDeclarations sourceCode) ∧
    (∀ n : String, (∃ b ∈ importInfo.imports, b.isNamespace = true) →
      isImportedInAny n importInfo = true) := by
  constructor
  · exact findAux_eq_emitAll importInfo (splitNL sourceCode) 0 none []
  · rintro n ⟨b, hb, hns⟩
    unfold isImportedInAny
    rw [List.any_eq_true]
    exact ⟨b, hb, by simp [hns]⟩

/-- Witness for C7 at a concrete source and a namespace import. -/
theorem c7_witness :
    extractImportedEntities "const ns1 = 1;\n;"
        ⟨"./m", [⟨"ns", none, false, true⟩], ""⟩ =
      emitAll ⟨"./m", [⟨"ns", none, false, true⟩], ""⟩ []
        (scanDeclarations "const ns1 = 1;\n;") ∧
    isImportedInAny "AnyName" ⟨"./m", [⟨"ns", none, false, true⟩], ""⟩ = true :=
  ⟨(c7_selection_policy "const ns1 = 1;\n;" ⟨"./m", [⟨"ns", none, false, true⟩], ""⟩).1,
    (c7_selection_policy "const ns1 = 1;\n;" ⟨"./m", [⟨"ns", none, false, true⟩], ""⟩).2
      "AnyName" ⟨⟨"ns", none, false, true⟩, by decide, rfl⟩⟩

theorem getD_of_drop_cons (lines : List String) (i : Nat) (l : String)
    (rest : List String) (h : lines.drop i = l :: rest) : lines.getD i "" = l := by
  have h1 : lines[i]? = some l := by
    rw [← List.head?_drop, h]
    rfl
  rw [List.getD_eq_getElem?_getD, h1]
  rfl

theorem braceSum_base (lines : List String) (s : Nat) (l : String)
    (rest : List String) (h : lines.drop s = l :: rest) :
    braceSum lines s s = braceDelta (jsTrim l) := by
  unfold braceSum
  rw [h]
  simp

theorem braceSum_step (lines : List String) (s j : Nat)
    (hsj : s ≤ j) (hlen : j + 1 < lines.length) :
    braceSum lines s (j + 1) =
      braceSum lines s j + braceDelta (jsTrim (lines.getD (j + 1) "")) := by
  unfold braceSum
  have h1 : j + 1 - s + 1 = (j - s + 1) + 1 := by omega
  rw [h1, List.take_succ]
  have h2 : (lines.drop s)[j - s + 1]? = some (lines.getD (j + 1) "") := by
    rw [List.getElem?_drop]
    have h3 : s + (j - s + 1) = j + 1 := by omega
    rw [h3, List.getElem?_eq_getElem hlen, List.getD_eq_getElem?_getD,
      List.getElem?_eq_getElem hlen]
    rfl
  rw [h2]
  simp

theorem take_extend (lines : List String) (s i : Nat) (l : String)
    (rest : List String) (hdrop : lines.drop i = l :: rest) (hsi : s ≤ i) :
    (lines.drop s).take (i - s) ++ [l] = (lines.drop s).take (i - s + 1) := by
  rw [List.take_succ]
  congr 1
  rw [List.getElem?_drop]
  have h1 : s + (i - s) = i := by omega
  rw [h1, ← List.head?_drop, hdrop]
  rfl

set_option maxHeartbeats 1000000 in
theorem scanAux_spec (lines : List String) :
    ∀ (rest : List String) (i : Nat) (cur : Option CollectState),
      lines.drop i = rest → i ≤ lines.length → curInv lines i cur →
      ∀ d ∈ scanAux rest i cur, declSpec lines d := by
  intro rest
  induction rest with
  | nil =>
    intro i cur hdrop hle hinv d hd
    cases cur with
    | none => cases hd
    | some st =>
      have hi : i = lines.length := by
        have := List.drop_eq_nil_iff.mp hdrop
        omega
      simp only [scanAux] at hd
      rcases List.mem_singleton.mp hd with rfl
      obtain ⟨h1, h2, h3, h4⟩ := hinv
      refine ⟨by simp; omega, by simp; omega, ?_, Or.inr ⟨by simp; omega, ?_⟩⟩
      · show st.buffer = _
        rw [h3]
        congr 1
        simp
        omega
      · intro j hj1 hj2
        exact h4 j hj1 (by simp at hj1 ⊢; omega)
  | cons l rest ih =>
    intro i cur hdrop hle hinv d hd
    have hlen : i < lines.length := by
      by_contra hcon
      rw [List.drop_eq_nil_iff.mpr (by omega)] at hdrop
      cases hdrop
    have hrest : lines.drop (i + 1) = rest := by
      rw [← List.tail_drop, hdrop]
      rfl
    have hgetD : lines.getD i "" = l := getD_of_drop_cons lines i l rest hdrop
    cases cur with
    | none =>
      cases hp : parseDeclStart (jsTrim l) with
      | none =>
        simp only [scanAux, hp] at hd
        exact ih (i + 1) none hrest (by omega) trivial d hd
      | some nm =>
        simp only [scanAux, hp] at hd
        refine ih (i + 1) (some ⟨nm, i, [l], braceDelta (jsTrim l)⟩) hrest
          (by omega) ?_ d hd
        refine ⟨Nat.lt_succ_self i, ?_, ?_, ?_⟩
        · show braceDelta (jsTrim l) = braceSum lines i (i + 1 - 1)
          have he : i + 1 - 1 = i := by omega
          rw [he, braceSum_base lines i l rest hdrop]
        · show [l] = (lines.drop i).take (i + 1 - i)
          rw [hdrop]
          have he : i + 1 - i = 1 := by omega
          rw [he]
          rfl
        · intro j hj1 hj2
          have hj1' : i < j := hj1
          have hj2' : j < i + 1 := hj2
          omega
    | some st =>
      obtain ⟨h1, h2, h3, h4⟩ := hinv
      have hcnt : st.bracketCount + braceDelta (jsTrim l) =
          braceSum lines st.startLine i := by
        cases i with
        | zero => omega
        | succ i' =>
          rw [h2]
          have he : i' + 1 - 1 = i' := rfl
          rw [he, braceSum_step lines st.startLine i' (by omega) (by omega)]
          rw [getD_of_drop_cons lines (i' + 1) l rest hdrop]
      by_cases hend : st.bracketCount + braceDelta (jsTrim l) = 0 ∧
          hasTerm (jsTrim l)
      · simp only [scanAux, if_pos hend] at hd
        rcases List.mem_cons.mp hd with rfl | hd'
        · refine ⟨by simp; omega, by simpa using hlen, ?_, Or.inl ⟨by simpa using h1, ?_, ?_⟩⟩
          · show st.buffer ++ [l] = (lines.drop st.startLine).take (i - st.startLine + 1)
            rw [h3, take_extend lines st.startLine i l rest hdrop (by omega)]
          · show lineCloses lines st.startLine i = true
            unfold lineCloses
            rw [hgetD, ← hcnt]
            simp [hend.1, hend.2]
          · intro j hj1 hj2
            exact h4 j (by simpa using hj1) (by simpa using hj2)
        · exact ih (i + 1) none hrest (by omega) trivial d hd'
      · simp only [scanAux, if_neg hend] at hd
        refine ih (i + 1) (some ⟨st.name, st.startLine, st.buffer ++ [l],
          st.bracketCount + braceDelta (jsTrim l)⟩) hrest (by omega) ?_ d hd
        refine ⟨(by omega : st.startLine < i + 1), ?_, ?_, ?_⟩
        · show st.bracketCount + braceDelta (jsTrim l) =
            braceSum lines st.startLine (i + 1 - 1)
          have he : i + 1 - 1 = i := by omega
          rw [he, hcnt]
        · show st.buffer ++ [l] = (lines.drop st.startLine).take (i + 1 - st.startLine)
          have he : i + 1 - st.startLine = (i - st.startLine) + 1 := by omega
          rw [he, h3, take_extend lines st.startLine i l rest hdrop (by omega)]
        · intro j hj1 hj2
          by_cases hji : j < i
          · exact h4 j hj1 hji
          · have hje : j = i := by omega
            subst hje
            push_neg at hend
            unfold lineCloses
            rw [hgetD, ← hcnt]
            by_cases hz : st.bracketCount + braceDelta (jsTrim l) = 0
            · simp [hz, hend hz]
            · simp [hz]

/-- C6, counterexample: the claim says a declaration ends on the first
line at depth exactly 0 containing `}` or `;`, including a start line that
itself qualifies.  In the source the start line `continue`s past the end
test, so for `"const a = 1;\nconst b = 2;"` the declaration of `a` does
not end on line 0 (which is at depth 0 and contains `;`): it ends on line
1, absorbing the next declaration into its buffer. -/
theorem c6_counterexample :
    ((extractImportedEntities "const a = 1;\nconst b = 2;"
        ⟨"./m", [⟨"a", none, false, false⟩], ""⟩).map
      (fun e => (e.name, e.location.start, e.location.endPos))) = [("a", 0, 1)] ∧
    lineCloses (splitNL "const a = 1;\nconst b = 2;") 0 0 = true := by
  constructor
  · decide
  · decide

/-- C6, amended: a collected declaration ends on the first line strictly
after its start line at which the running brace depth (summed from the
start line, inclusive) is exactly 0 and which contains `}` or `;`; the end
test is never applied to the start line itself (the scanner `continue`s
after seeding the state), and a declaration with no such later line is
force-closed at end of file with the last line index as its end.  In both
cases the emitted line range is the contiguous buffered slice. -/
theorem c6_declaration_end (sourceCode : String) (importInfo : ImportInfo) :
    ∀ e ∈ extractImportedEntities sourceCode importInfo,
      e.location.start ≤ e.location.endPos ∧
      e.location.endPos < (splitNL sourceCode).length ∧
      ((e.location.start < e.location.endPos ∧
          lineCloses (splitNL sourceCode) e.location.start e.location.endPos
            = true ∧
          ∀ j, e.location.start < j → j < e.location.endPos →
            lineCloses (splitNL sourceCode) e.location.start j = false) ∨
        (e.location.endPos = (splitNL sourceCode).length - 1 ∧
          ∀ j, e.location.start < j → j < (splitNL sourceCode).length →
            lineCloses (splitNL sourceCode) e.location.start j = false)) := by
  intro e he
  rw [show extractImportedEntities sourceCode importInfo =
      emitAll importInfo [] (scanAux (splitNL sourceCode) 0 none) from
    findAux_eq_emitAll importInfo (splitNL sourceCode) 0 none []] at he
  obtain ⟨d, hd, _, _, hloc⟩ := emitAll_mem importInfo _ [] e he
  obtain ⟨hs1, hs2, _, hs4⟩ := scanAux_spec (splitNL sourceCode)
    (splitNL sourceCode) 0 none (List.drop_zero _) (Nat.zero_le _) trivial d hd
  rw [hloc]
  exact ⟨hs1, hs2, hs4⟩

/-- Witness for C6's amended theorem: in `"const a = 1;\n;"` the
declaration of `a` starts on line 0 and ends on line 1, within range. -/
theorem c6_witness :
    (⟨"a", "\nconst a = 1;\n;\n", ⟨0, 1⟩⟩ : ExtractedContent) ∈
      extractImportedEntities "const a = 1;\n;"
        ⟨"./m", [⟨"a", none, false, false⟩], ""⟩ ∧
    (0 : Nat) ≤ 1 ∧ (1 : Nat) < (splitNL "const a = 1;\n;").length := by
  have hmem : (⟨"a", "\nconst a = 1;\n;\n", ⟨0, 1⟩⟩ : ExtractedContent) ∈
      extractImportedEntities "const a = 1;\n;"
        ⟨"./m", [⟨"a", none, false, false⟩], ""⟩ := by decide
  have hc := c6_declaration_end "const a = 1;\n;"
    ⟨"./m", [⟨"a", none, false, false⟩], ""⟩
    ⟨"a", "\nconst a = 1;\n;\n", ⟨0, 1⟩⟩ hmem
  exact ⟨hmem, hc.1, hc.2.1⟩

/-- C8: the emitted content of every extracted declaration is the buffered
text — the contiguous slice of raw source lines from the start line through
the end line, joined with newlines — with every run of two or more blank
lines collapsed to exactly one blank line (`collapseBlankRuns`), a leading
`export default ` modifier stripped (`stripExportDefault`), and the
trimmed result wrapped in exactly one leading and one trailing newline
character. -/
theorem c8_content_formatting (sourceCode : String) (importInfo : ImportInfo) :
    ∀ e ∈ extractImportedEntities sourceCode importInfo,
      e.content = "\n" ++ jsTrim (stripExportDefault (collapseBlankRuns
        (intercalateNL (((splitNL sourceCode).drop e.location.start).take
          (e.location.endPos - e.location.start + 1))))) ++ "\n" := by
  intro e he
  rw [show extractImportedEntities sourceCode importInfo =
      emitAll importInfo [] (scanAux (splitNL sourceCode) 0 none) from
    findAux_eq_emitAll importInfo (splitNL sourceCode) 0 none []] at he
  obtain ⟨d, hd, _, hcontent, hloc⟩ := emitAll_mem importInfo _ [] e he
  obtain ⟨_, _, hbuf, _⟩ := scanAux_spec (splitNL sourceCode)
    (splitNL sourceCode) 0 none (List.drop_zero _) (Nat.zero_le _) trivial d hd
  rw [hcontent, hloc]
  show formatDeclaration (intercalateNL d.buffer) = _
  rw [hbuf]
  rfl

/-- Witness for C8: a default-exported function with a run of three blank
lines collapses to one blank line, loses its `export default ` prefix and
is wrapped in single newlines. -/
theorem c8_witness :
    (⟨"F", "\nfunction F() \x7b\n\nreturn 1;\n\x7d\n", ⟨0, 5⟩⟩ : ExtractedContent) ∈
      extractImportedEntities
        "export default function F() \x7b\n\n\n\nreturn 1;\n\x7d"
        ⟨"./m", [⟨"F", none, false, false⟩], ""⟩ ∧
    (⟨"F", "\nfunction F() \x7b\n\nreturn 1;\n\x7d\n", ⟨0, 5⟩⟩ :
        ExtractedContent).content =
      "\n" ++ jsTrim (stripExportDefault (collapseBlankRuns (intercalateNL
        (((splitNL "export default function F() \x7b\n\n\n\nreturn 1;\n\x7d").drop 0).take
          (5 - 0 + 1))))) ++ "\n" := by
  have hmem : (⟨"F", "\nfunction F() \x7b\n\nreturn 1;\n\x7d\n", ⟨0, 5⟩⟩ :
      ExtractedContent) ∈
      extractImportedEntities
        "export default function F() \x7b\n\n\n\nreturn 1;\n\x7d"
        ⟨"./m", [⟨"F", none, false, false⟩], ""⟩ := by decide
  exact ⟨hmem, c8_content_formatting
    "export default function F() \x7b\n\n\n\nreturn 1;\n\x7d"
    ⟨"./m", [⟨"F", none, false, false⟩], ""⟩
    ⟨"F", "\nfunction F() \x7b\n\nreturn 1;\n\x7d\n", ⟨0, 5⟩⟩ hmem⟩

theorem noBigRunAux_ws_append (rest : List Char) :
    ∀ (block : List Char) (k : Nat), (∀ c ∈ block, c.isWhitespace) →
      k + nlCount block ≤ 2 →
      noBigRunAux k (block ++ rest) = noBigRunAux (k + nlCount block) rest := by
  intro block
  induction block with
  | nil => intro k _ _; simp [nlCount]
  | cons c b ih =>
    intro k hws hle
    have hcws : c.isWhitespace := hws c (List.mem_cons_self c b)
    have hbws : ∀ x ∈ b, x.isWhitespace := fun x hx => hws x (List.mem_cons_of_mem c hx)
    by_cases hnl : c = '\n'
    · have hcnt : nlCount (c :: b) = nlCount b + 1 := by
        simp [nlCount, List.countP_cons, hnl]
      rw [hcnt] at hle ⊢
      simp only [List.cons_append, noBigRunAux, if_pos hnl, List.append_eq]
      rw [ih (k + 1) hbws (by omega)]
      have hdec : decide (k + 1 ≤ 2) = true := by simp; omega
      rw [hdec]
      simp only [Bool.true_and]
      congr 1
      omega
    · have hcnt : nlCount (c :: b) = nlCount b := by
        simp [nlCount, List.countP_cons, hnl]
      rw [hcnt] at hle ⊢
      simp only [List.cons_append, noBigRunAux, if_neg hnl, if_pos hcws, List.append_eq]
      exact ih k hbws hle

theorem flushWsRun_ws (pend : List Char) (h : ∀ c ∈ pend, c.isWhitespace) :
    ∀ c ∈ flushWsRun pend, c.isWhitespace := by
  intro c hc
  simp only [flushWsRun] at hc
  by_cases h3 : 3 ≤ List.countP (fun x => x = '\n') pend.reverse
  · rw [if_pos h3] at hc
    rcases List.mem_append.mp hc with h1 | h2
    · exact h c (List.mem_reverse.mp ((List.takeWhile_prefix _).subset h1))
    · rcases List.mem_cons.mp h2 with rfl | h2'
      · simp [Char.isWhitespace]
      · rcases List.mem_cons.mp h2' with rfl | h2''
        · simp [Char.isWhitespace]
        · have hm := (List.takeWhile_prefix _).subset (List.mem_reverse.mp h2'')
          exact h c (by simpa using hm)
  · rw [if_neg h3] at hc
    exact h c (List.mem_reverse.mp hc)

theorem flushWsRun_nlCount (pend : List Char) :
    nlCount (flushWsRun pend) ≤ 2 := by
  simp only [flushWsRun]
  by_cases h3 : 3 ≤ List.countP (fun x => x = '\n') pend.reverse
  · rw [if_pos h3]
    unfold nlCount
    rw [List.countP_append, List.countP_cons, List.countP_cons]
    have h1 : (pend.reverse.takeWhile (· ≠ '\n')).countP (· = '\n') = 0 := by
      rw [List.countP_eq_zero]
      intro c hc
      have hp := List.mem_takeWhile_imp hc
      simpa using hp
    have h2 : ((pend.reverse.reverse.takeWhile (· ≠ '\n')).reverse).countP
        (· = '\n') = 0 := by
      rw [List.countP_eq_zero]
      intro c hc
      have hp := List.mem_takeWhile_imp (List.mem_reverse.mp hc)
      simpa using hp
    rw [h1, h2]
    simp
  · rw [if_neg h3]
    unfold nlCount
    omega

theorem collapseBlankAux_no_big_run :
    ∀ (input pend : List Char), (∀ c ∈ pend, c.isWhitespace) →
      noBigRunAux 0 (collapseBlankAux pend input) = true := by
  intro input
  induction input with
  | nil =>
    intro pend hws
    show noBigRunAux 0 (flushWsRun pend) = true
    have hgen := noBigRunAux_ws_append [] (flushWsRun pend) 0
      (flushWsRun_ws pend hws) (by have := flushWsRun_nlCount pend; omega)
    simpa using hgen
  | cons c rest ih =>
    intro pend hws
    by_cases hcws : c.isWhitespace
    · simp only [collapseBlankAux, if_pos hcws]
      refine ih (c :: pend) ?_
      intro x hx
      rcases List.mem_cons.mp hx with rfl | hx'
      · exact hcws
      · exact hws x hx'
    · simp only [collapseBlankAux, if_neg hcws]
      rw [noBigRunAux_ws_append (c :: collapseBlankAux [] rest) (flushWsRun pend) 0
        (flushWsRun_ws pend hws) (by have := flushWsRun_nlCount pend; omega)]
      have hcnl : c ≠ '\n' := by
        intro hEq
        exact hcws (by rw [hEq]; simp [Char.isWhitespace])
      simp only [noBigRunAux, if_neg hcnl, if_neg hcws]
      exact ih [] (by intro x hx; cases hx)

/-- Strengthening of the blank-line collapse: the output of
`collapseBlankRuns` never contains a whitespace run with more than two
newlines, so every collapsed run spans at most one blank line. -/
theorem collapseBlankRuns_no_big_run (s : String) :
    noBigBlankRun (collapseBlankRuns s) = true :=
  collapseBlankAux_no_big_run s.data [] (by intro x hx; cases hx)
